import Mathlib

set_option maxHeartbeats 1000000
set_option maxRecDepth 10000

/-!
Verification of the awscli-local packaging-automation scripts.

The repository consists of three Python scripts operating on the text of a
PKGBUILD file (the Build Descriptor):
  scripts/check_version.py    — the Version Checker
  scripts/generate_srcinfo.py — the Metadata Regenerator
  scripts/update_pkgbuild.py  — the Descriptor Updater

This file gives a shallow embedding of the string-processing and control flow
of these scripts.  Text is modelled as `List Char`; each Python regular
expression used by the scripts is translated into an explicit left-to-right
scanning function with the exact matching semantics of that pattern
(the patterns are simple enough that greedy matching plus backtracking
collapses to a direct computation, documented at each definition).
Network and file-system effects are modelled by passing the environment
(file contents, HTTP responses) as explicit `Option` values.
-/

namespace AwscliLocal

/-- Program text is a list of characters. -/
abbrev Str := List Char

/-- Boolean test: is `p` a leading segment of `s`?  Mirrors the way every
regex used by the scripts anchors a literal at the current scan position. -/
def isPre : Str → Str → Bool
  | [], _ => true
  | _ :: _, [] => false
  | a :: as, b :: bs => a == b && isPre as bs

/-- Python's substring containment test `pat in s`. -/
def containsSub (pat : Str) : Str → Bool
  | [] => isPre pat []
  | c :: cs => isPre pat (c :: cs) || containsSub pat cs

/-- Does `s` start with a character different from `c0`?  This is the
test `.`-style character classes perform for a single required character. -/
def headIsNot (c0 : Char) : Str → Bool
  | [] => false
  | c :: _ => c != c0

/-- Number of positions of `s` at which `pat` occurs. -/
def occCount (pat s : Str) : Nat :=
  ((List.range s.length).filter (fun i => isPre pat (s.drop i))).length

/-- Join a list of newline-free lines into file text; every line is
terminated by a newline, the layout of the descriptor files at hand. -/
def joinLines : List Str → Str
  | [] => []
  | l :: ls => l ++ '\n' :: joinLines ls

/-! ### Basic lemmas about the primitives -/

theorem isPre_nil (s : Str) : isPre [] s = true := by
  cases s <;> rfl

theorem isPre_cons_iff {a : Char} {as s : Str} :
    isPre (a :: as) s = true ↔ ∃ bs, s = a :: bs ∧ isPre as bs = true := by
  cases s with
  | nil => simp [isPre]
  | cons b bs =>
    simp only [isPre, Bool.and_eq_true, beq_iff_eq]
    constructor
    · rintro ⟨rfl, h⟩; exact ⟨bs, rfl, h⟩
    · rintro ⟨bs', heq, h⟩
      cases heq; exact ⟨rfl, h⟩

theorem isPre_iff_append {p s : Str} : isPre p s = true ↔ ∃ t, s = p ++ t := by
  induction p generalizing s with
  | nil => simp [isPre_nil]
  | cons a as ih =>
    rw [isPre_cons_iff]
    constructor
    · rintro ⟨bs, rfl, h⟩
      obtain ⟨t, rfl⟩ := ih.mp h
      exact ⟨t, rfl⟩
    · rintro ⟨t, rfl⟩
      exact ⟨as ++ t, rfl, ih.mpr ⟨t, rfl⟩⟩

theorem isPre_append_self (p t : Str) : isPre p (p ++ t) = true :=
  isPre_iff_append.mpr ⟨t, rfl⟩

theorem isPre_refl (p : Str) : isPre p p = true := by
  have := isPre_append_self p []
  simpa using this

theorem isPre_append_right {p u : Str} (w : Str) (h : isPre p u = true) :
    isPre p (u ++ w) = true := by
  obtain ⟨t, rfl⟩ := isPre_iff_append.mp h
  rw [List.append_assoc]
  exact isPre_append_self p (t ++ w)

theorem isPre_length {p s : Str} (h : isPre p s = true) : p.length ≤ s.length := by
  obtain ⟨t, rfl⟩ := isPre_iff_append.mp h
  simp

theorem isPre_nonnil_nil {p : Str} (hp : p ≠ []) : isPre p [] = false := by
  cases p with
  | nil => exact absurd rfl hp
  | cons a as => rfl

/-- A pattern not containing `c` which matches at the start of `u ++ c :: w`
already matches at the start of `u`. -/
theorem isPre_stop {p : Str} {c : Char} (hc : c ∉ p) :
    ∀ {u w : Str}, isPre p (u ++ c :: w) = true → isPre p u = true := by
  induction p with
  | nil => intro u w _; exact isPre_nil u
  | cons a as ih =>
    intro u w h
    cases u with
    | nil =>
      rw [List.nil_append] at h
      obtain ⟨bs, heq, _⟩ := isPre_cons_iff.mp h
      cases heq
      exact absurd (List.mem_cons_self c as) hc
    | cons b bs =>
      obtain ⟨bs', heq, h'⟩ := isPre_cons_iff.mp h
      rw [List.cons_append] at heq
      cases heq
      have hc' : c ∉ as := fun hm => hc (List.mem_cons_of_mem _ hm)
      rw [isPre_cons_iff]
      exact ⟨bs, rfl, ih hc' h'⟩

/-- Matching only looks at the first `p.length` characters. -/
theorem isPre_congr {p s t : Str} (h : s.take p.length = t.take p.length) :
    isPre p s = isPre p t := by
  induction p generalizing s t with
  | nil => rw [isPre_nil, isPre_nil]
  | cons a as ih =>
    cases s with
    | nil =>
      cases t with
      | nil => rfl
      | cons x xs => simp [List.take] at h
    | cons b bs =>
      cases t with
      | nil => simp [List.take] at h
      | cons x xs =>
        simp only [List.take, List.cons.injEq] at h
        obtain ⟨rfl, h2⟩ := h
        simp only [isPre]
        rw [ih h2]

/-- A match of `q` yields a match of any leading segment `p` of `q`. -/
theorem isPre_of_isPre_pre {p q s : Str} (hpq : isPre p q = true)
    (h : isPre q s = true) : isPre p s = true := by
  obtain ⟨r, rfl⟩ := isPre_iff_append.mp hpq
  obtain ⟨t, rfl⟩ := isPre_iff_append.mp h
  rw [List.append_assoc]
  exact isPre_append_self p (r ++ t)

theorem containsSub_eq_false_iff {pat s : Str} :
    containsSub pat s = false ↔ ∀ i, isPre pat (s.drop i) = false := by
  induction s with
  | nil =>
    simp only [containsSub]
    constructor
    · intro h i; simpa using h
    · intro h; simpa using h 0
  | cons c cs ih =>
    simp only [containsSub, Bool.or_eq_false_iff]
    constructor
    · rintro ⟨h0, h1⟩ i
      cases i with
      | zero => exact h0
      | succ j => exact (ih.mp h1) j
    · intro h
      refine ⟨h 0, ih.mpr fun j => ?_⟩
      exact h (j + 1)

theorem containsSub_true_of_drop {pat s : Str} {i : Nat}
    (h : isPre pat (s.drop i) = true) : containsSub pat s = true := by
  by_contra hf
  have := containsSub_eq_false_iff.mp (Bool.eq_false_iff.mpr hf) i
  rw [this] at h
  exact Bool.false_ne_true h

theorem containsSub_self_append (pat t : Str) :
    containsSub pat (pat ++ t) = true :=
  containsSub_true_of_drop (i := 0) (by simpa using isPre_append_self pat t)

theorem containsSub_cons_false {pat : Str} {c : Char} {cs : Str}
    (h : containsSub pat (c :: cs) = false) : containsSub pat cs = false := by
  simp only [containsSub, Bool.or_eq_false_iff] at h
  exact h.2

theorem containsSub_head_false {pat : Str} {c : Char} {cs : Str}
    (h : containsSub pat (c :: cs) = false) : isPre pat (c :: cs) = false := by
  simp only [containsSub, Bool.or_eq_false_iff] at h
  exact h.1

theorem ne_nil_of_containsSub_false {pat s : Str}
    (h : containsSub pat s = false) : pat ≠ [] := by
  intro hp
  subst hp
  have := containsSub_eq_false_iff.mp h 0
  rw [isPre_nil] at this
  simp at this

/-- Containment is antitone with respect to leading-segment patterns. -/
theorem containsSub_false_of_pre {p q s : Str} (hpq : isPre p q = true)
    (h : containsSub p s = false) : containsSub q s = false := by
  rw [containsSub_eq_false_iff] at h ⊢
  intro i
  cases hq : isPre q (s.drop i) with
  | false => rfl
  | true =>
    have := isPre_of_isPre_pre hpq hq
    rw [h i] at this
    simp at this

theorem filter_range_eq_nil {p : Nat → Bool} {n : Nat}
    (h : ∀ i < n, p i = false) : (List.range n).filter p = [] := by
  apply List.filter_eq_nil_iff.mpr
  intro a ha
  rw [List.mem_range] at ha
  simp [h a ha]

theorem filter_range_eq_single {p : Nat → Bool} {n j : Nat}
    (hj : j < n) (hpj : p j = true) (huniq : ∀ i < n, p i = true → i = j) :
    (List.range n).filter p = [j] := by
  induction n with
  | zero => omega
  | succ m ih =>
    rw [List.range_succ, List.filter_append]
    by_cases hjm : j = m
    · have h1 : (List.range m).filter p = [] := by
        apply filter_range_eq_nil
        intro i hi
        by_contra hne
        have hpi : p i = true := Bool.not_eq_false _ |>.mp hne
        have := huniq i (Nat.lt_succ_of_lt hi) hpi
        omega
      subst hjm
      simp [h1, hpj]
    · have hjm' : j < m := by
        have := Nat.lt_succ_iff.mp hj
        omega
      have h2 := ih hjm' (fun i hi hp => huniq i (Nat.lt_succ_of_lt hi) hp)
      have h3 : p m = false := by
        by_contra hne
        have hpm : p m = true := Bool.not_eq_false _ |>.mp hne
        exact hjm (huniq m (Nat.lt_succ_self m) hpm).symm
      simp [h2, h3]

theorem occCount_eq_one {pat s : Str} {j : Nat} (hj : j < s.length)
    (hpj : isPre pat (s.drop j) = true)
    (huniq : ∀ i < s.length, isPre pat (s.drop i) = true → i = j) :
    occCount pat s = 1 := by
  unfold occCount
  rw [filter_range_eq_single hj hpj huniq]
  rfl

theorem joinLines_append (xs ys : List Str) :
    joinLines (xs ++ ys) = joinLines xs ++ joinLines ys := by
  induction xs with
  | nil => rfl
  | cons l ls ih => simp [joinLines, ih]

theorem joinLines_cons (l : Str) (ls : List Str) :
    joinLines (l :: ls) = l ++ '\n' :: joinLines ls := rfl

/-! ## The Version Checker (scripts/check_version.py)

`get_current_version` extracts the current version with
`re.search(r'pkgver=(.+)', content)`: scan left to right for the first
position where the literal `pkgver=` is followed by at least one
non-newline character; the group is the greedy run of non-newline
characters after the literal. -/

def pkgverKey : Str := ("pkgver=").toList

def pkgrelKey : Str := ("pkgrel=").toList

/-- First match of `pkgver=(.+)` in the text, returning group 1. -/
def pkgverSearch : Str → Option Str
  | [] => none
  | c :: cs =>
    if isPre pkgverKey (c :: cs) && headIsNot '\n' (List.drop pkgverKey.length (c :: cs)) then
      some ((List.drop pkgverKey.length (c :: cs)).takeWhile (fun d => d != '\n'))
    else pkgverSearch cs

/-- Reading the PKGBUILD and extracting `pkgver`; `none` models both a
missing file (FileNotFoundError) and a failed field extraction. -/
def get_current_version (file : Option Str) : Option Str :=
  match file with
  | none => none
  | some c => pkgverSearch c

/-- Result of one run of the Version Checker: process exit status, the
number of PyPI fetch attempts made, and the `key=value` outputs emitted. -/
structure CheckRun where
  exit : Nat
  fetches : Nat
  outputs : List (Str × Str)
deriving DecidableEq

/-- The Version Checker `main`: `latest` is the remote index's response to
the single `get_latest_version` call (`none` = request failure). -/
def check_main (file latest : Option Str) : CheckRun :=
  match get_current_version file with
  | none => { exit := 1, fetches := 0, outputs := [] }
  | some cur =>
    match latest with
    | none => { exit := 1, fetches := 1, outputs := [] }
    | some lv =>
      { exit := 0, fetches := 1,
        outputs := [(("current_version").toList, cur),
                    (("latest_version").toList, lv),
                    (("needs_update").toList,
                      if cur = lv then ("false").toList else ("true").toList)] }

/-! ## The Metadata Regenerator (scripts/generate_srcinfo.py)

`parse_pkgbuild` extracts scalar fields with `re.search` on patterns of the
form `key=([^X]+)` (optionally closed by a delimiter) and array fields with
`key=\(([^)]+)\)`; the array contents are then tokenized by
`re.findall(r"'([^']+)'|\"([^\"]+)\"|([^\s'\"]+)", ...)`. -/

/-- First match of `key` followed by a nonempty greedy run of characters
rejected by `stop`; when `needClose` is set the run must be terminated by an
actual stopping character (not end of text).  This is the exact semantics of
`re.search(key ++ "([^X]+)" ++ closer, s)` for the patterns used here. -/
def extractRun (key : Str) (stop : Char → Bool) (needClose : Bool) : Str → Option Str
  | [] => none
  | c :: cs =>
    if isPre key (c :: cs) = true then
      let rest := List.drop key.length (c :: cs)
      let b := rest.takeWhile (fun d => !stop d)
      if b ≠ [] ∧ (needClose = false ∨ rest.drop b.length ≠ []) then some b
      else extractRun key stop needClose cs
    else extractRun key stop needClose cs

/-- Python's `\s` class: space, tab, newline, carriage return, vertical tab,
form feed. -/
def pySpace (c : Char) : Bool :=
  c == ' ' || c == '\t' || c == '\n' || c == '\r' || c == '\x0b' || c == '\x0c'

def fieldPkgname (c : Str) : Option Str :=
  extractRun (("pkgname=").toList) pySpace false c

def fieldPkgver (c : Str) : Option Str :=
  extractRun (("pkgver=").toList) pySpace false c

def fieldPkgrel (c : Str) : Option Str :=
  extractRun (("pkgrel=").toList) pySpace false c

def fieldPkgdesc (c : Str) : Option Str :=
  extractRun (("pkgdesc=\"").toList) (fun d => d == '"') true c

def fieldUrl (c : Str) : Option Str :=
  extractRun (("url=\"").toList) (fun d => d == '"') true c

/-- Raw text between the parentheses of `key=(...)`, per `key=\(([^)]+)\)`. -/
def arrayRaw (key : Str) (c : Str) : Option Str :=
  extractRun key (fun d => d == ')') true c

/-- Characters allowed in a bare (unquoted) array token: not whitespace and
not a quote, per the third findall alternative `[^\s'\"]+`. -/
def bareOK (d : Char) : Bool := !pySpace d && d != '\'' && d != '"'

/-- Fuel-driven core of the array tokenizer.  At each scan position the three
regex alternatives are tried in order: a single-quoted token `'([^']+)'`, a
double-quoted token `"([^"]+)"`, then a bare token `[^\s'"]+`; on failure the
scan advances one character. -/
def tokenizeF : Nat → Str → List Str
  | 0, _ => []
  | _ + 1, [] => []
  | fuel + 1, c :: cs =>
    if c = '\'' then
      let b := cs.takeWhile (fun d => d != '\'')
      if b ≠ [] ∧ cs.drop b.length ≠ [] then b :: tokenizeF fuel (cs.drop (b.length + 1))
      else tokenizeF fuel cs
    else if c = '"' then
      let b := cs.takeWhile (fun d => d != '"')
      if b ≠ [] ∧ cs.drop b.length ≠ [] then b :: tokenizeF fuel (cs.drop (b.length + 1))
      else tokenizeF fuel cs
    else if bareOK c = true then
      (c :: cs.takeWhile bareOK) :: tokenizeF fuel (cs.dropWhile bareOK)
    else tokenizeF fuel cs

/-- `re.findall` tokenization of an array body (all matches, left to right,
non-overlapping). -/
def tokenize (s : Str) : List Str := tokenizeF s.length s

/-- An array field as `parse_pkgbuild` computes it: tokenize the match, or
produce `[]` when the `key=(...)` pattern does not match at all. -/
def arrayField (key : Str) (c : Str) : List Str :=
  match arrayRaw key c with
  | some s => tokenize s
  | none => []

/-- Parsed PKGBUILD data, the dict built by `parse_pkgbuild`. -/
structure PkgInfo where
  pkgname : Str
  pkgver : Str
  pkgrel : Str
  pkgdesc : Str
  url : Str
  arch : List Str
  license : List Str
  depends : List Str
  makedepends : List Str
deriving DecidableEq

/-- The whole of `parse_pkgbuild` on file text: all five scalar fields are
required (the script returns `None`, and `main` exits 1, when any is
missing); empty arch/license arrays default to `['any']` / `['unknown']`. -/
def parse_pkgbuild (c : Str) : Option PkgInfo :=
  match fieldPkgname c, fieldPkgver c, fieldPkgrel c, fieldPkgdesc c, fieldUrl c with
  | some n, some v, some r, some d, some u =>
    let arch := arrayField (("arch=(").toList) c
    let lic := arrayField (("license=(").toList) c
    some { pkgname := n, pkgver := v, pkgrel := r, pkgdesc := d, url := u,
           arch := if arch = [] then [("any").toList] else arch,
           license := if lic = [] then [("unknown").toList] else lic,
           depends := arrayField (("depends=(").toList) c,
           makedepends := arrayField (("makedepends=(").toList) c }
  | _, _, _, _, _ => none

/-- The lines of the generated .SRCINFO, in the exact order `generate_srcinfo`
appends them. -/
def srcinfoLines (p : PkgInfo) : List Str :=
  [("pkgbase = ").toList ++ p.pkgname,
   ("\tpkgdesc = ").toList ++ p.pkgdesc,
   ("\tpkgver = ").toList ++ p.pkgver,
   ("\tpkgrel = ").toList ++ p.pkgrel,
   ("\turl = ").toList ++ p.url]
  ++ p.arch.map (fun a => ("\tarch = ").toList ++ a)
  ++ p.license.map (fun a => ("\tlicense = ").toList ++ a)
  ++ p.depends.map (fun a => ("\tdepends = ").toList ++ a)
  ++ p.makedepends.map (fun a => ("\tmakedepends = ").toList ++ a)
  ++ [[], ("pkgname = ").toList ++ p.pkgname]

/-- The rendered .SRCINFO text: `'\n'.join(lines) + '\n'`. -/
def generate_srcinfo (p : PkgInfo) : Str :=
  List.intercalate ['\n'] (srcinfoLines p) ++ ['\n']

/-- The Metadata Regenerator `main`: exit status and the .SRCINFO text
written (when any). -/
def gen_main (file : Option Str) : Nat × Option Str :=
  match file with
  | none => (1, none)
  | some c =>
    match parse_pkgbuild c with
    | none => (1, none)
    | some p => (0, some (generate_srcinfo p))

/-! ## The Descriptor Updater (scripts/update_pkgbuild.py)

`update_pkgbuild` rewrites the PKGBUILD text in four steps, all computed on
the in-memory string before a single final write:
  1. `re.sub(r'pkgver=.+', 'pkgver=<version>', content)`
  2. `re.sub(r'pkgrel=.+', 'pkgrel=1', content)`
  3. if `'source=(' in content`: substitute the filename suffix in the
     pythonhosted URL inside the source array,
  4. the three-branch sha256sums rewrite.

`re.sub` replaces every non-overlapping match, scanning left to right and
resuming after each match; on a failed match the scan advances by one
character.  The scanners below implement exactly that, with a fuel argument
(structural recursion) so that they also compute by kernel reduction; fuel
`s.length` always suffices since every step consumes at least one character. -/

/-- Scanner for `re.sub(key ++ ".+", repl, s)`: at a match, the literal plus
the greedy nonempty run of non-newline characters is replaced by `repl` and
the scan resumes at the newline (or end). -/
def subFieldF (key repl : Str) : Nat → Str → Str
  | 0, s => s
  | _ + 1, [] => []
  | fuel + 1, c :: cs =>
    if isPre key (c :: cs) && headIsNot '\n' (List.drop key.length (c :: cs)) then
      repl ++ subFieldF key repl fuel
        ((List.drop key.length (c :: cs)).dropWhile (fun d => d != '\n'))
    else
      c :: subFieldF key repl fuel cs

theorem length_dropWhile_le (p : Char → Bool) (l : Str) :
    (l.dropWhile p).length ≤ l.length := by
  induction l with
  | nil => simp [List.dropWhile]
  | cons a as ih =>
    rw [List.dropWhile_cons]
    split
    · exact Nat.le_trans ih (Nat.le_succ _)
    · simp

theorem subFieldF_fuel (key repl : Str) :
    ∀ f₁ f₂ s, s.length ≤ f₁ → s.length ≤ f₂ →
      subFieldF key repl f₁ s = subFieldF key repl f₂ s := by
  intro f₁
  induction f₁ with
  | zero =>
    intro f₂ s h1 _
    have : s = [] := List.eq_nil_of_length_eq_zero (Nat.le_zero.mp h1)
    subst this
    cases f₂ <;> rfl
  | succ g ih =>
    intro f₂ s h1 h2
    cases s with
    | nil => cases f₂ <;> rfl
    | cons c cs =>
      cases f₂ with
      | zero => simp at h2
      | succ h =>
        have hlen : cs.length ≤ g := by simp at h1; omega
        have hlen2 : cs.length ≤ h := by simp at h2; omega
        simp only [subFieldF]
        split
        · rename_i hcond
          rw [Bool.and_eq_true] at hcond
          have harg : ((List.drop key.length (c :: cs)).dropWhile
              (fun d => d != '\n')).length ≤ cs.length := by
            cases hk : key with
            | nil =>
              subst hk
              simp only [List.length_nil, List.drop_zero]
              have hc : (c != '\n') = true := hcond.2
              have hstep : List.dropWhile (fun d => d != '\n') (c :: cs)
                  = List.dropWhile (fun d => d != '\n') cs := by
                rw [List.dropWhile_cons]
                simp [hc]
              rw [hstep]
              exact length_dropWhile_le _ _
            | cons k ks =>
              refine Nat.le_trans (length_dropWhile_le _ _) ?_
              rw [List.length_drop]
              simp [hk]
          exact congrArg (fun t => repl ++ t)
            (ih h _ (Nat.le_trans harg hlen) (Nat.le_trans harg hlen2))
        · exact congrArg (fun t => c :: t) (ih h cs hlen hlen2)

/-- `re.sub(key ++ ".+", repl, s)`. -/
def subField (key repl s : Str) : Str := subFieldF key repl s.length s

/-- Scanner for `re.sub` with a plain literal pattern (used for
`sha256sums=\('SKIP'\)`). -/
def subLitF (pat repl : Str) : Nat → Str → Str
  | 0, s => s
  | _ + 1, [] => []
  | fuel + 1, c :: cs =>
    if pat ≠ [] ∧ isPre pat (c :: cs) = true then
      repl ++ subLitF pat repl fuel (List.drop pat.length (c :: cs))
    else
      c :: subLitF pat repl fuel cs

theorem subLitF_fuel (pat repl : Str) :
    ∀ f₁ f₂ s, s.length ≤ f₁ → s.length ≤ f₂ →
      subLitF pat repl f₁ s = subLitF pat repl f₂ s := by
  intro f₁
  induction f₁ with
  | zero =>
    intro f₂ s h1 _
    have : s = [] := List.eq_nil_of_length_eq_zero (Nat.le_zero.mp h1)
    subst this
    cases f₂ <;> rfl
  | succ g ih =>
    intro f₂ s h1 h2
    cases s with
    | nil => cases f₂ <;> rfl
    | cons c cs =>
      cases f₂ with
      | zero => simp at h2
      | succ h =>
        have hlen : cs.length ≤ g := by simp at h1; omega
        have hlen2 : cs.length ≤ h := by simp at h2; omega
        simp only [subLitF]
        split
        · rename_i hcond
          have hk : 1 ≤ pat.length := by
            cases hp : pat with
            | nil => exact absurd hp hcond.1
            | cons x xs => simp
          have harg : (List.drop pat.length (c :: cs)).length ≤ cs.length := by
            rw [List.length_drop]
            simp only [List.length_cons]
            omega
          exact congrArg (fun t => repl ++ t)
            (ih h _ (Nat.le_trans harg hlen) (Nat.le_trans harg hlen2))
        · exact congrArg (fun t => c :: t) (ih h cs hlen hlen2)

/-- `re.sub(pat-literal, repl, s)`. -/
def subLit (pat repl s : Str) : Str := subLitF pat repl s.length s

def shaOpen : Str := ("sha256sums=('").toList

def shaClose : Str := ("')").toList

def shaOpenParen : Str := ("sha256sums=(").toList

def skipAssign : Str := ("sha256sums=('SKIP')").toList

/-- The replacement text `sha256sums=('<h>')`. -/
def shaAssign (h : Str) : Str := shaOpen ++ h ++ ("')").toList

/-- The position in `s` right after the opening `sha256sums=('`: the greedy
non-quote run, used by the existing-checksum rewrite pattern. -/
def shaBody (s : Str) : Str :=
  (List.drop shaOpen.length s).takeWhile (fun d => d != '\'')

/-- What follows the greedy non-quote run after `sha256sums=('`. -/
def shaAfter (s : Str) : Str :=
  (List.drop shaOpen.length s).drop (shaBody s).length

/-- Scanner for `re.sub(r"sha256sums=\('[^']*'\)", repl, s)`: after the
opening literal the greedy run of non-quote characters must be terminated by
the two-character closer `')`. -/
def subShaF (repl : Str) : Nat → Str → Str
  | 0, s => s
  | _ + 1, [] => []
  | fuel + 1, c :: cs =>
    if isPre shaOpen (c :: cs) = true then
      if isPre shaClose (shaAfter (c :: cs)) = true then
        repl ++ subShaF repl fuel
          (List.drop ((shaBody (c :: cs)).length + 2)
            (List.drop shaOpen.length (c :: cs)))
      else c :: subShaF repl fuel cs
    else c :: subShaF repl fuel cs

theorem subShaF_fuel (repl : Str) :
    ∀ f₁ f₂ s, s.length ≤ f₁ → s.length ≤ f₂ →
      subShaF repl f₁ s = subShaF repl f₂ s := by
  intro f₁
  induction f₁ with
  | zero =>
    intro f₂ s h1 _
    have : s = [] := List.eq_nil_of_length_eq_zero (Nat.le_zero.mp h1)
    subst this
    cases f₂ <;> rfl
  | succ g ih =>
    intro f₂ s h1 h2
    cases s with
    | nil => cases f₂ <;> rfl
    | cons c cs =>
      cases f₂ with
      | zero => simp at h2
      | succ h =>
        have hlen : cs.length ≤ g := by simp at h1; omega
        have hlen2 : cs.length ≤ h := by simp at h2; omega
        simp only [subShaF]
        split
        · split
          · have harg : (List.drop ((shaBody (c :: cs)).length + 2)
                (List.drop shaOpen.length (c :: cs))).length ≤ cs.length := by
              rw [List.length_drop, List.length_drop]
              simp only [List.length_cons]
              have h13 : shaOpen.length = 13 := by rfl
              omega
            exact congrArg (fun t => repl ++ t)
              (ih h _ (Nat.le_trans harg hlen) (Nat.le_trans harg hlen2))
          · exact congrArg (fun t => c :: t) (ih h cs hlen hlen2)
        · exact congrArg (fun t => c :: t) (ih h cs hlen hlen2)

/-- `re.sub(r"sha256sums=\('[^']*'\)", repl, s)`. -/
def subSha (repl s : Str) : Str := subShaF repl s.length s

def srcOpen : Str := ("source=(").toList

def urlLit : Str := ("https://files.pythonhosted.org/packages/").toList

/-- A backtracking position for the greedy `[^)]*` before the pythonhosted
literal: the literal matches at offset `k` of the paren body `A` and the
following `[^")]+` has at least one admissible character. -/
def validK (A : Str) (k : Nat) : Bool :=
  isPre urlLit (A.drop k) && headIsNot '"' (A.drop (k + urlLit.length))

/-- The position the greedy `[^)]*` settles on: the largest valid `k`. -/
def lastValidK (A : Str) : Option Nat :=
  ((List.range A.length).filter (validK A)).getLast?

/-- The paren body: maximal run of non-`)` characters after `source=(`. -/
def parenBody (s : Str) : Str :=
  (List.drop srcOpen.length s).takeWhile (fun d => d != ')')

/-- What follows the paren body (starts with `)` when nonempty). -/
def parenAfter (s : Str) : Str :=
  (List.drop srcOpen.length s).drop (parenBody s).length

/-- The kept tail of the source replacement: group 2 without its closing
paren, i.e. the paren body from the first `"` after the matched literal. -/
def keptTail (A : Str) (k : Nat) : Str :=
  (A.drop (k + urlLit.length)).drop
    (((A.drop (k + urlLit.length)).takeWhile (fun d => d != '"')).length)

/-- Scanner for
`re.sub(r'(source=\([^)]*https://files\.pythonhosted\.org/packages/)[^")]+([^)]*\))', g1 ++ sfx ++ g2, s)`.
At a position where `source=(` matches, `parenBody` is the greedy run of
non-`)` characters; the pattern matches iff the run is closed by a real `)`
and the pythonhosted literal occurs at some valid backtracking position
inside the run; the replacement keeps group 1 (everything up to and
including the literal), inserts `sfx`, and keeps group 2 (from the first `"`
after the literal, through the closing paren). -/
def srcSubF (sfx : Str) : Nat → Str → Str
  | 0, s => s
  | _ + 1, [] => []
  | fuel + 1, c :: cs =>
    if isPre srcOpen (c :: cs) = true then
      match lastValidK (parenBody (c :: cs)), parenAfter (c :: cs) with
      | some k, _ :: tail =>
        srcOpen ++ (parenBody (c :: cs)).take k ++ urlLit ++ sfx ++
          keptTail (parenBody (c :: cs)) k ++ ')' :: srcSubF sfx fuel tail
      | some _, [] => c :: srcSubF sfx fuel cs
      | none, _ => c :: srcSubF sfx fuel cs
    else c :: srcSubF sfx fuel cs

theorem srcSubF_fuel (sfx : Str) :
    ∀ f₁ f₂ s, s.length ≤ f₁ → s.length ≤ f₂ →
      srcSubF sfx f₁ s = srcSubF sfx f₂ s := by
  intro f₁
  induction f₁ with
  | zero =>
    intro f₂ s h1 _
    have : s = [] := List.eq_nil_of_length_eq_zero (Nat.le_zero.mp h1)
    subst this
    cases f₂ <;> rfl
  | succ g ih =>
    intro f₂ s h1 h2
    cases s with
    | nil => cases f₂ <;> rfl
    | cons c cs =>
      cases f₂ with
      | zero => simp at h2
      | succ h =>
        have hlen : cs.length ≤ g := by simp at h1; omega
        have hlen2 : cs.length ≤ h := by simp at h2; omega
        simp only [srcSubF]
        split
        · split
          · rename_i k e tail hk htail
            have htl : tail.length ≤ cs.length := by
              have h3' : (parenAfter (c :: cs)).length = tail.length + 1 := by
                rw [htail]; simp
              unfold parenAfter at h3'
              rw [List.length_drop, List.length_drop] at h3'
              simp only [List.length_cons] at h3'
              have h8 : srcOpen.length = 8 := by rfl
              omega
            exact congrArg (fun t => srcOpen ++ (parenBody (c :: cs)).take k ++
              urlLit ++ sfx ++ keptTail (parenBody (c :: cs)) k ++ ')' :: t)
              (ih h tail (Nat.le_trans htl hlen) (Nat.le_trans htl hlen2))
          · exact congrArg (fun t => c :: t) (ih h cs hlen hlen2)
          · exact congrArg (fun t => c :: t) (ih h cs hlen hlen2)
        · exact congrArg (fun t => c :: t) (ih h cs hlen hlen2)

/-- The source-URL `re.sub` of step 3. -/
def srcSub (sfx s : Str) : Str := srcSubF sfx s.length s

/-- `re.search(r'source=\([^)]+\)', s).end()`: the index just past the `)`
of the first closed, nonempty source array. -/
def findSrcParenEnd : Str → Option Nat
  | [] => none
  | c :: cs =>
    if isPre srcOpen (c :: cs) = true then
      if parenBody (c :: cs) ≠ [] ∧ parenAfter (c :: cs) ≠ [] then
        some (srcOpen.length + (parenBody (c :: cs)).length + 1)
      else (findSrcParenEnd cs).map (· + 1)
    else (findSrcParenEnd cs).map (· + 1)

/-- Branch (c) of the checksum rewrite: insert `"\n" ++ line` right after the
end of the source array (no change when the search fails). -/
def shaInsert (line content : Str) : Str :=
  match findSrcParenEnd content with
  | some e => content.take e ++ '\n' :: line ++ content.drop e
  | none => content

def pkgsLit : Str := ("packages/").toList

/-- Positions where `pat` occurs in `s`; the last one drives Python's
`s.split(pat)[-1]`. -/
def lastOcc (pat s : Str) : Option Nat :=
  ((List.range (s.length + 1)).filter (fun i => isPre pat (s.drop i))).getLast?

/-- `download_url.split('packages/')[-1]`: the text after the last
occurrence of `packages/`, or the whole string if it does not occur. -/
def urlSuffix (url : Str) : Str :=
  match lastOcc pkgsLit url with
  | some i => url.drop (i + pkgsLit.length)
  | none => url

/-- Step 3 of `update_pkgbuild`, including its `'source=(' in content` guard. -/
def sourceStage (url c : Str) : Str :=
  if containsSub srcOpen c = true then srcSub (urlSuffix url) c else c

/-- Step 4 of `update_pkgbuild`: the ordered three-branch checksum rewrite. -/
def shaStage (sha c : Str) : Str :=
  if containsSub skipAssign c = true then subLit skipAssign (shaAssign sha) c
  else if containsSub shaOpenParen c = true then subSha (shaAssign sha) c
  else shaInsert (shaAssign sha) c

/-- The full in-memory rewrite `update_pkgbuild` performs on the PKGBUILD
text before writing it back. -/
def updateContent (version url sha c : Str) : Str :=
  shaStage sha (sourceStage url
    (subField pkgrelKey (("pkgrel=1").toList)
      (subField pkgverKey (pkgverKey ++ version) c)))

/-! ### The Updater pipeline `main` -/

/-- One artifact entry of the PyPI version record (`urls` array element). -/
structure PyFile where
  packagetype : Str
  url : Str
  sha256 : Str
deriving DecidableEq

/-- The environment one Updater invocation runs in: the PyPI version-record
response (`none` = request failure / non-success status), the artifact
download response, and the current PKGBUILD file (`none` = absent). -/
structure UpdEnv where
  files : Option (List PyFile)
  download : Option Str
  pkgbuild : Option Str

/-- `get_package_info`: pick the first `sdist` artifact of the record and
return its URL and index-reported sha256; `None` on fetch failure or when no
source distribution exists. -/
def get_package_info (files : Option (List PyFile)) : Option (Str × Str) :=
  match files with
  | none => none
  | some fs =>
    match fs.find? (fun f => f.packagetype = ("sdist").toList) with
    | none => none
    | some f => some (f.url, f.sha256)

/-- `verify_checksum`: download the artifact and compare the index digest
with the sha256 of the downloaded bytes; `hashFn` stands for
`hashlib.sha256(·).hexdigest()`. -/
def verify_checksum (hashFn : Str → Str) (download : Option Str)
    (expected : Str) : Bool :=
  match download with
  | none => false
  | some content => hashFn content = expected

/-- The Updater `main`: exit status and the PKGBUILD file content after the
run.  All edits happen on the in-memory copy; the file is written only on
the all-substitutions-succeeded path. -/
def update_main (hashFn : Str → Str) (env : UpdEnv) (version : Str)
    (verify : Bool) : Nat × Option Str :=
  match get_package_info env.files with
  | none => (1, env.pkgbuild)
  | some (url, sha) =>
    if verify && !(verify_checksum hashFn env.download sha) then (1, env.pkgbuild)
    else
      match env.pkgbuild with
      | none => (1, none)
      | some c => (0, some (updateContent version url sha c))

/-! ### Step equations for the fuel-based scanners

The fuel-irrelevance lemmas let every scanner be rewritten with ordinary
one-step equations, independent of the starting fuel. -/

theorem tokenizeF_fuel :
    ∀ f₁ f₂ s, s.length ≤ f₁ → s.length ≤ f₂ → tokenizeF f₁ s = tokenizeF f₂ s := by
  intro f₁
  induction f₁ with
  | zero =>
    intro f₂ s h1 _
    have : s = [] := List.eq_nil_of_length_eq_zero (Nat.le_zero.mp h1)
    subst this
    cases f₂ <;> rfl
  | succ g ih =>
    intro f₂ s h1 h2
    cases s with
    | nil => cases f₂ <;> rfl
    | cons c cs =>
      cases f₂ with
      | zero => simp at h2
      | succ h =>
        have hlen : cs.length ≤ g := by simp at h1; omega
        have hlen2 : cs.length ≤ h := by simp at h2; omega
        have hd1 : ∀ n, (cs.drop n).length ≤ cs.length := by
          intro n; rw [List.length_drop]; omega
        have hd2 : (cs.dropWhile bareOK).length ≤ cs.length :=
          length_dropWhile_le _ _
        simp only [tokenizeF]
        split
        · split
          · exact congrArg _ (ih h _ (Nat.le_trans (hd1 _) hlen)
              (Nat.le_trans (hd1 _) hlen2))
          · exact ih h cs hlen hlen2
        · split
          · split
            · exact congrArg _ (ih h _ (Nat.le_trans (hd1 _) hlen)
                (Nat.le_trans (hd1 _) hlen2))
            · exact ih h cs hlen hlen2
          · split
            · exact congrArg _ (ih h _ (Nat.le_trans hd2 hlen)
                (Nat.le_trans hd2 hlen2))
            · exact ih h cs hlen hlen2

theorem subField_nil (key repl : Str) : subField key repl [] = [] := rfl

theorem subField_cons_pos {key : Str} {c : Char} {cs : Str} (repl : Str)
    (h : (isPre key (c :: cs) &&
      headIsNot '\n' (List.drop key.length (c :: cs))) = true) :
    subField key repl (c :: cs) = repl ++ subField key repl
      ((List.drop key.length (c :: cs)).dropWhile (fun d => d != '\n')) := by
  have harg : ((List.drop key.length (c :: cs)).dropWhile
      (fun d => d != '\n')).length ≤ cs.length := by
    rw [Bool.and_eq_true] at h
    cases hk : key with
    | nil =>
      subst hk
      simp only [List.length_nil, List.drop_zero]
      have hc : (c != '\n') = true := h.2
      have hstep : List.dropWhile (fun d => d != '\n') (c :: cs)
          = List.dropWhile (fun d => d != '\n') cs := by
        rw [List.dropWhile_cons]
        simp [hc]
      rw [hstep]
      exact length_dropWhile_le _ _
    | cons k ks =>
      refine Nat.le_trans (length_dropWhile_le _ _) ?_
      rw [List.length_drop]
      simp [hk]
  show subFieldF key repl (cs.length + 1) (c :: cs) = _
  simp only [subFieldF]
  rw [if_pos h]
  exact congrArg (fun t => repl ++ t)
    (subFieldF_fuel key repl cs.length _ _ harg (Nat.le_refl _))

theorem subField_cons_neg {key : Str} {c : Char} {cs : Str} (repl : Str)
    (h : (isPre key (c :: cs) &&
      headIsNot '\n' (List.drop key.length (c :: cs))) = false) :
    subField key repl (c :: cs) = c :: subField key repl cs := by
  show subFieldF key repl (cs.length + 1) (c :: cs) = _
  simp only [subFieldF]
  rw [if_neg (by simp [h])]
  exact congrArg (fun t => c :: t)
    (subFieldF_fuel key repl cs.length cs.length cs (Nat.le_refl _) (Nat.le_refl _))

theorem subLit_nil (pat repl : Str) : subLit pat repl [] = [] := rfl

theorem subLit_cons_pos {pat : Str} {c : Char} {cs : Str} (repl : Str)
    (hp : pat ≠ []) (h : isPre pat (c :: cs) = true) :
    subLit pat repl (c :: cs) =
      repl ++ subLit pat repl (List.drop pat.length (c :: cs)) := by
  have hk : 1 ≤ pat.length := by
    cases hpp : pat with
    | nil => exact absurd hpp hp
    | cons x xs => simp
  have harg : (List.drop pat.length (c :: cs)).length ≤ cs.length := by
    rw [List.length_drop]; simp only [List.length_cons]; omega
  show subLitF pat repl (cs.length + 1) (c :: cs) = _
  simp only [subLitF]
  rw [if_pos ⟨hp, h⟩]
  exact congrArg (fun t => repl ++ t)
    (subLitF_fuel pat repl cs.length _ _ harg (Nat.le_refl _))

theorem subLit_cons_neg {pat : Str} {c : Char} {cs : Str} (repl : Str)
    (h : ¬(pat ≠ [] ∧ isPre pat (c :: cs) = true)) :
    subLit pat repl (c :: cs) = c :: subLit pat repl cs := by
  show subLitF pat repl (cs.length + 1) (c :: cs) = _
  simp only [subLitF]
  rw [if_neg h]
  exact congrArg (fun t => c :: t)
    (subLitF_fuel pat repl cs.length cs.length cs (Nat.le_refl _) (Nat.le_refl _))

theorem subSha_nil (repl : Str) : subSha repl [] = [] := rfl

theorem subSha_cons_pos {c : Char} {cs : Str} (repl : Str)
    (h1 : isPre shaOpen (c :: cs) = true)
    (h2 : isPre shaClose (shaAfter (c :: cs)) = true) :
    subSha repl (c :: cs) = repl ++ subSha repl
      (List.drop ((shaBody (c :: cs)).length + 2)
        (List.drop shaOpen.length (c :: cs))) := by
  have harg : (List.drop ((shaBody (c :: cs)).length + 2)
      (List.drop shaOpen.length (c :: cs))).length ≤ cs.length := by
    rw [List.length_drop, List.length_drop]
    simp only [List.length_cons]
    have h13 : shaOpen.length = 13 := by rfl
    omega
  show subShaF repl (cs.length + 1) (c :: cs) = _
  simp only [subShaF]
  rw [if_pos h1, if_pos h2]
  exact congrArg (fun t => repl ++ t)
    (subShaF_fuel repl cs.length _ _ harg (Nat.le_refl _))

theorem subSha_cons_neg {c : Char} {cs : Str} (repl : Str)
    (h : isPre shaOpen (c :: cs) = false ∨
      isPre shaClose (shaAfter (c :: cs)) = false) :
    subSha repl (c :: cs) = c :: subSha repl cs := by
  show subShaF repl (cs.length + 1) (c :: cs) = _
  have htail := subShaF_fuel repl cs.length cs.length cs (Nat.le_refl _) (Nat.le_refl _)
  simp only [subShaF]
  rcases h with h | h
  · rw [if_neg (by simp [h])]
    exact congrArg (fun t => c :: t) htail
  · by_cases h1 : isPre shaOpen (c :: cs) = true
    · rw [if_pos h1, if_neg (by simp [h])]
      exact congrArg (fun t => c :: t) htail
    · rw [if_neg h1]
      exact congrArg (fun t => c :: t) htail

theorem srcSub_nil (sfx : Str) : srcSub sfx [] = [] := rfl

theorem srcSub_cons_pos {c : Char} {cs : Str} {k : Nat} {e : Char} {tail : Str}
    (sfx : Str) (h1 : isPre srcOpen (c :: cs) = true)
    (hk : lastValidK (parenBody (c :: cs)) = some k)
    (hafter : parenAfter (c :: cs) = e :: tail) :
    srcSub sfx (c :: cs) = srcOpen ++ (parenBody (c :: cs)).take k ++ urlLit
      ++ sfx ++ keptTail (parenBody (c :: cs)) k ++ ')' :: srcSub sfx tail := by
  have htl : tail.length ≤ cs.length := by
    have h3' : (parenAfter (c :: cs)).length = tail.length + 1 := by
      rw [hafter]; simp
    unfold parenAfter at h3'
    rw [List.length_drop, List.length_drop] at h3'
    simp only [List.length_cons] at h3'
    have h8 : srcOpen.length = 8 := by rfl
    omega
  show srcSubF sfx (cs.length + 1) (c :: cs) = _
  simp only [srcSubF]
  rw [if_pos h1]
  rw [hk, hafter]
  exact congrArg (fun t => srcOpen ++ (parenBody (c :: cs)).take k ++ urlLit
    ++ sfx ++ keptTail (parenBody (c :: cs)) k ++ ')' :: t)
    (srcSubF_fuel sfx cs.length tail.length tail htl (Nat.le_refl _))

theorem srcSub_cons_neg {c : Char} {cs : Str} (sfx : Str)
    (h : isPre srcOpen (c :: cs) = false ∨
      lastValidK (parenBody (c :: cs)) = none ∨ parenAfter (c :: cs) = []) :
    srcSub sfx (c :: cs) = c :: srcSub sfx cs := by
  show srcSubF sfx (cs.length + 1) (c :: cs) = _
  have htail := srcSubF_fuel sfx cs.length cs.length cs (Nat.le_refl _) (Nat.le_refl _)
  simp only [srcSubF]
  rcases h with h | h | h
  · rw [if_neg (by simp [h])]
    exact congrArg (fun t => c :: t) htail
  · by_cases h1 : isPre srcOpen (c :: cs) = true
    · rw [if_pos h1, h]
      cases hafter : parenAfter (c :: cs) <;>
        exact congrArg (fun t => c :: t) htail
    · rw [if_neg h1]
      exact congrArg (fun t => c :: t) htail
  · by_cases h1 : isPre srcOpen (c :: cs) = true
    · rw [if_pos h1, h]
      cases hk : lastValidK (parenBody (c :: cs)) <;>
        exact congrArg (fun t => c :: t) htail
    · rw [if_neg h1]
      exact congrArg (fun t => c :: t) htail

theorem tokenize_nil : tokenize [] = [] := rfl

theorem tokenize_cons_squote {a rest : Str} (ha : a ≠ []) (hq : '\'' ∉ a) :
    tokenize ('\'' :: (a ++ '\'' :: rest)) = a :: tokenize rest := by
  have hall : ∀ x ∈ a, (fun d => d != '\'') x := by
    intro x hx
    simp only [bne_iff_ne, ne_eq]
    exact fun h => hq (h ▸ hx)
  have htw : (a ++ '\'' :: rest).takeWhile (fun d => d != '\'') = a := by
    rw [List.takeWhile_append_of_pos hall, List.takeWhile_cons_of_neg (by simp),
      List.append_nil]
  have hdw : (a ++ '\'' :: rest).drop a.length = '\'' :: rest :=
    List.drop_left a ('\'' :: rest)
  have hdrop : (a ++ '\'' :: rest).drop (a.length + 1) = rest := by
    have hsplit : a ++ '\'' :: rest = (a ++ ['\'']) ++ rest := by simp
    rw [hsplit, List.drop_left' (by simp)]
  show tokenizeF ((a ++ '\'' :: rest).length + 1) ('\'' :: (a ++ '\'' :: rest)) = _
  simp only [tokenizeF]
  rw [if_pos trivial, htw, hdw]
  rw [if_pos ⟨ha, List.cons_ne_nil _ _⟩]
  rw [hdrop]
  exact congrArg (fun t => a :: t)
    (tokenizeF_fuel _ rest.length rest (by simp; omega) (Nat.le_refl _))

theorem tokenize_cons_dquote {b rest : Str} (hb : b ≠ []) (hq : '"' ∉ b) :
    tokenize ('"' :: (b ++ '"' :: rest)) = b :: tokenize rest := by
  have hall : ∀ x ∈ b, (fun d => d != '"') x := by
    intro x hx
    simp only [bne_iff_ne, ne_eq]
    exact fun h => hq (h ▸ hx)
  have htw : (b ++ '"' :: rest).takeWhile (fun d => d != '"') = b := by
    rw [List.takeWhile_append_of_pos hall, List.takeWhile_cons_of_neg (by simp),
      List.append_nil]
  have hdw : (b ++ '"' :: rest).drop b.length = '"' :: rest :=
    List.drop_left b ('"' :: rest)
  have hdrop : (b ++ '"' :: rest).drop (b.length + 1) = rest := by
    have hsplit : b ++ '"' :: rest = (b ++ ['"']) ++ rest := by simp
    rw [hsplit, List.drop_left' (by simp)]
  show tokenizeF ((b ++ '"' :: rest).length + 1) ('"' :: (b ++ '"' :: rest)) = _
  simp only [tokenizeF]
  rw [if_neg (show ¬(('"' : Char) = '\'') by decide)]
  rw [if_pos trivial, htw, hdw]
  rw [if_pos ⟨hb, List.cons_ne_nil _ _⟩]
  rw [hdrop]
  exact congrArg (fun t => b :: t)
    (tokenizeF_fuel _ rest.length rest (by simp; omega) (Nat.le_refl _))

theorem tokenize_cons_skip {c : Char} {cs : Str} (h1 : ¬(c = '\''))
    (h2 : ¬(c = '"')) (h3 : ¬(bareOK c = true)) :
    tokenize (c :: cs) = tokenize cs := by
  show tokenizeF (cs.length + 1) (c :: cs) = _
  simp only [tokenizeF]
  rw [if_neg h1, if_neg h2, if_neg h3]
  rfl

theorem tokenize_cons_bare {c : Char} {cs : Str} (hc : bareOK c = true)
    (h1 : ¬(c = '\'')) (h2 : ¬(c = '"')) :
    tokenize (c :: cs) =
      (c :: cs.takeWhile bareOK) :: tokenize (cs.dropWhile bareOK) := by
  show tokenizeF (cs.length + 1) (c :: cs) = _
  simp only [tokenizeF]
  rw [if_neg h1, if_neg h2, if_pos hc]
  exact congrArg (fun t => (c :: cs.takeWhile bareOK) :: t)
    (tokenizeF_fuel cs.length _ _ (length_dropWhile_le _ _) (Nat.le_refl _))

/-! ### Line-by-line behaviour of the scanners

The patterns the Updater scans for never contain a newline, so on
newline-separated text every match is confined to one line; these lemmas make
that precise. -/

theorem isPre_cons_of_not_mem {p : Str} {c : Char} (hp : p ≠ []) (hc : c ∉ p)
    (x : Str) : isPre p (c :: x) = false := by
  cases p with
  | nil => exact absurd rfl hp
  | cons k ks =>
    have hk : (k == c) = false := by
      rw [beq_eq_false_iff_ne]
      intro h
      exact hc (h ▸ List.mem_cons_self k ks)
    simp [isPre, hk]

theorem isPre_line_false {pat l : Str} {w : Str} (hnl : '\n' ∉ pat)
    (hl : containsSub pat l = false) {i : Nat} (hi : i < l.length) :
    isPre pat ((l ++ '\n' :: w).drop i) = false := by
  rw [List.drop_append_of_le_length (Nat.le_of_lt hi)]
  cases hip : isPre pat (l.drop i ++ '\n' :: w) with
  | false => rfl
  | true =>
    have := isPre_stop hnl hip
    rw [containsSub_eq_false_iff.mp hl i] at this
    simp at this

/-- Head-match wrapper for `subField` on text of the shape `key ++ ...`. -/
theorem subField_pos' {key : Str} (repl : Str) {s : Str}
    (hne : key ≠ [])
    (h : (isPre key s && headIsNot '\n' (List.drop key.length s)) = true) :
    subField key repl s = repl ++ subField key repl
      ((List.drop key.length s).dropWhile (fun d => d != '\n')) := by
  cases s with
  | nil =>
    rw [Bool.and_eq_true] at h
    rw [isPre_nonnil_nil hne] at h
    simp at h
  | cons c cs => exact subField_cons_pos repl h

theorem subSha_pos' (repl : Str) {s : Str}
    (h1 : isPre shaOpen s = true)
    (h2 : isPre shaClose (shaAfter s) = true) :
    subSha repl s = repl ++ subSha repl
      (List.drop ((shaBody s).length + 2) (List.drop shaOpen.length s)) := by
  cases s with
  | nil =>
    rw [isPre_nonnil_nil (by decide)] at h1
    simp at h1
  | cons c cs => exact subSha_cons_pos repl h1 h2

theorem srcSub_pos' (sfx : Str) {s : Str} {k : Nat} {e : Char} {tail : Str}
    (h1 : isPre srcOpen s = true)
    (hk : lastValidK (parenBody s) = some k)
    (hafter : parenAfter s = e :: tail) :
    srcSub sfx s = srcOpen ++ (parenBody s).take k ++ urlLit
      ++ sfx ++ keptTail (parenBody s) k ++ ')' :: srcSub sfx tail := by
  cases s with
  | nil =>
    rw [isPre_nonnil_nil (by decide)] at h1
    simp at h1
  | cons c cs => exact srcSub_cons_pos sfx h1 hk hafter

theorem subLit_pos' {pat : Str} (repl : Str) {s : Str} (hp : pat ≠ [])
    (h : isPre pat s = true) :
    subLit pat repl s = repl ++ subLit pat repl (List.drop pat.length s) := by
  cases s with
  | nil =>
    rw [isPre_nonnil_nil hp] at h
    simp at h
  | cons c cs => exact subLit_cons_pos repl hp h

/-- A line free of the key passes through `subField` unchanged. -/
theorem subField_skipLine {key : Str} (repl : Str) (hknl : '\n' ∉ key) :
    ∀ (l rest : Str), containsSub key l = false → '\n' ∉ l →
      subField key repl (l ++ '\n' :: rest)
        = l ++ '\n' :: subField key repl rest := by
  intro l
  induction l with
  | nil =>
    intro rest hl _
    have hkey : key ≠ [] := ne_nil_of_containsSub_false hl
    rw [List.nil_append]
    have h0 : isPre key ('\n' :: rest) = false :=
      isPre_cons_of_not_mem hkey hknl rest
    rw [subField_cons_neg repl (by rw [h0]; rfl)]
    rfl
  | cons c l' ih =>
    intro rest hl hnl
    have h0 : isPre key ((c :: l') ++ '\n' :: rest) = false := by
      cases hip : isPre key ((c :: l') ++ '\n' :: rest) with
      | false => rfl
      | true =>
        have := isPre_stop hknl hip
        rw [containsSub_head_false hl] at this
        simp at this
    rw [List.cons_append]
    rw [subField_cons_neg repl (by rw [← List.cons_append, h0]; rfl)]
    rw [ih rest (containsSub_cons_false hl)
      (fun hm => hnl (List.mem_cons_of_mem _ hm))]
    rfl

/-- A line free of the literal passes through `subLit` unchanged. -/
theorem subLit_skipLine {pat : Str} (repl : Str) (hknl : '\n' ∉ pat) :
    ∀ (l rest : Str), containsSub pat l = false → '\n' ∉ l →
      subLit pat repl (l ++ '\n' :: rest)
        = l ++ '\n' :: subLit pat repl rest := by
  intro l
  induction l with
  | nil =>
    intro rest hl _
    have hkey : pat ≠ [] := ne_nil_of_containsSub_false hl
    rw [List.nil_append]
    have h0 : isPre pat ('\n' :: rest) = false :=
      isPre_cons_of_not_mem hkey hknl rest
    rw [subLit_cons_neg repl (by rw [h0]; simp)]
    rfl
  | cons c l' ih =>
    intro rest hl hnl
    have h0 : isPre pat ((c :: l') ++ '\n' :: rest) = false := by
      cases hip : isPre pat ((c :: l') ++ '\n' :: rest) with
      | false => rfl
      | true =>
        have := isPre_stop hknl hip
        rw [containsSub_head_false hl] at this
        simp at this
    rw [List.cons_append]
    rw [subLit_cons_neg repl (by rw [← List.cons_append]; rw [h0]; simp)]
    rw [ih rest (containsSub_cons_false hl)
      (fun hm => hnl (List.mem_cons_of_mem _ hm))]
    rfl

/-- A line free of `sha256sums=(` passes through `subSha` unchanged. -/
theorem subSha_skipLine (repl : Str) :
    ∀ (l rest : Str), containsSub shaOpenParen l = false → '\n' ∉ l →
      subSha repl (l ++ '\n' :: rest) = l ++ '\n' :: subSha repl rest := by
  intro l
  induction l with
  | nil =>
    intro rest _ _
    rw [List.nil_append]
    have h0 : isPre shaOpen ('\n' :: rest) = false :=
      isPre_cons_of_not_mem (by decide) (by decide) rest
    rw [subSha_cons_neg repl (Or.inl h0)]
    rfl
  | cons c l' ih =>
    intro rest hl hnl
    have hl13 : containsSub shaOpen (c :: l') = false :=
      containsSub_false_of_pre (by decide) hl
    have h0 : isPre shaOpen ((c :: l') ++ '\n' :: rest) = false := by
      cases hip : isPre shaOpen ((c :: l') ++ '\n' :: rest) with
      | false => rfl
      | true =>
        have := isPre_stop (by decide) hip
        rw [containsSub_head_false hl13] at this
        simp at this
    rw [List.cons_append]
    rw [subSha_cons_neg repl (Or.inl (by rw [← List.cons_append]; exact h0))]
    rw [ih rest (containsSub_cons_false hl)
      (fun hm => hnl (List.mem_cons_of_mem _ hm))]
    rfl

/-- A line free of `source=(` passes through `srcSub` unchanged. -/
theorem srcSub_skipLine (sfx : Str) :
    ∀ (l rest : Str), containsSub srcOpen l = false → '\n' ∉ l →
      srcSub sfx (l ++ '\n' :: rest) = l ++ '\n' :: srcSub sfx rest := by
  intro l
  induction l with
  | nil =>
    intro rest _ _
    rw [List.nil_append]
    have h0 : isPre srcOpen ('\n' :: rest) = false :=
      isPre_cons_of_not_mem (by decide) (by decide) rest
    rw [srcSub_cons_neg sfx (Or.inl h0)]
    rfl
  | cons c l' ih =>
    intro rest hl hnl
    have h0 : isPre srcOpen ((c :: l') ++ '\n' :: rest) = false := by
      cases hip : isPre srcOpen ((c :: l') ++ '\n' :: rest) with
      | false => rfl
      | true =>
        have := isPre_stop (by decide) hip
        rw [containsSub_head_false hl] at this
        simp at this
    rw [List.cons_append]
    rw [srcSub_cons_neg sfx (Or.inl (by rw [← List.cons_append]; exact h0))]
    rw [ih rest (containsSub_cons_false hl)
      (fun hm => hnl (List.mem_cons_of_mem _ hm))]
    rfl

/-- Containment across a clean line reduces to containment in the rest. -/
theorem containsSub_skipLine {pat : Str} (hknl : '\n' ∉ pat) :
    ∀ (l rest : Str), containsSub pat l = false →
      containsSub pat (l ++ '\n' :: rest) = containsSub pat rest := by
  intro l
  induction l with
  | nil =>
    intro rest hl
    have hkey : pat ≠ [] := ne_nil_of_containsSub_false hl
    rw [List.nil_append]
    show (isPre pat ('\n' :: rest) || containsSub pat rest) = _
    rw [isPre_cons_of_not_mem hkey hknl rest]
    simp
  | cons c l' ih =>
    intro rest hl
    have h0 : isPre pat ((c :: l') ++ '\n' :: rest) = false := by
      cases hip : isPre pat ((c :: l') ++ '\n' :: rest) with
      | false => rfl
      | true =>
        have := isPre_stop hknl hip
        rw [containsSub_head_false hl] at this
        simp at this
    rw [List.cons_append]
    show (isPre pat (c :: (l' ++ '\n' :: rest)) || _) = _
    rw [← List.cons_append, h0, ih rest (containsSub_cons_false hl)]
    simp

theorem containsSub_append_mid (pat x y : Str) :
    containsSub pat (x ++ pat ++ y) = true := by
  refine containsSub_true_of_drop (i := x.length) ?_
  rw [List.append_assoc, List.drop_left]
  exact isPre_append_self pat y

theorem drop_takeWhile_length (p : Char → Bool) (l : Str) :
    l.drop (l.takeWhile p).length = l.dropWhile p := by
  induction l with
  | nil => rfl
  | cons c cs ih =>
    by_cases hc : p c = true
    · rw [List.takeWhile_cons_of_pos hc, List.dropWhile_cons_of_pos hc]
      simp only [List.length_cons, List.drop_succ_cons]
      exact ih
    · rw [List.takeWhile_cons_of_neg hc, List.dropWhile_cons_of_neg hc]
      simp

/-- The well-formed `pkgver=`/`pkgrel=` line is rewritten to `repl` and the
scan resumes after the line. -/
theorem subField_matchLine {key v : Str} (repl rest : Str) (hkey : key ≠ [])
    (hknl : '\n' ∉ key) (hv : v ≠ []) (hvnl : '\n' ∉ v) :
    subField key repl ((key ++ v) ++ '\n' :: rest)
      = repl ++ '\n' :: subField key repl rest := by
  rw [List.append_assoc]
  have hdrop : List.drop key.length (key ++ (v ++ '\n' :: rest))
      = v ++ '\n' :: rest := List.drop_left _ _
  have h1 : isPre key (key ++ (v ++ '\n' :: rest)) = true := isPre_append_self _ _
  have h2 : headIsNot '\n' (List.drop key.length (key ++ (v ++ '\n' :: rest)))
      = true := by
    rw [hdrop]
    cases hvv : v with
    | nil => exact absurd hvv hv
    | cons d v' =>
      have hd : d ≠ '\n' := fun h => hvnl (hvv ▸ (h ▸ List.mem_cons_self d v'))
      simp [headIsNot, hd]
  rw [subField_pos' repl hkey (by rw [h1, h2]; rfl)]
  rw [hdrop]
  have h3 : (v ++ '\n' :: rest).dropWhile (fun d => d != '\n') = '\n' :: rest := by
    rw [List.dropWhile_append_of_pos ?hpos, List.dropWhile_cons_of_neg (by simp)]
    case hpos =>
      intro x hx
      simp only [bne_iff_ne, ne_eq]
      exact fun h => hvnl (h ▸ hx)
  rw [h3]
  rw [subField_cons_neg repl (by rw [isPre_cons_of_not_mem hkey hknl rest]; rfl)]

/-- The sentinel line `sha256sums=('SKIP')` (or any full-literal line) is
rewritten to `repl`. -/
theorem subLit_matchLine {pat : Str} (repl rest : Str) (hp : pat ≠ [])
    (hknl : '\n' ∉ pat) :
    subLit pat repl (pat ++ '\n' :: rest) = repl ++ '\n' :: subLit pat repl rest := by
  rw [subLit_pos' repl hp (isPre_append_self _ _), List.drop_left]
  rw [subLit_cons_neg repl ?hc]
  case hc =>
    intro hand
    rw [isPre_cons_of_not_mem hp hknl rest] at hand
    simp at hand

/-- The well-formed checksum line `sha256sums=('old')` is rewritten to
`repl` by the existing-value branch. -/
theorem subSha_matchLine {old : Str} (repl rest : Str) (hq : '\'' ∉ old) :
    subSha repl (shaAssign old ++ '\n' :: rest)
      = repl ++ '\n' :: subSha repl rest := by
  have e1 : shaAssign old ++ '\n' :: rest
      = shaOpen ++ (old ++ '\'' :: ')' :: '\n' :: rest) := by
    show (shaOpen ++ old ++ ("')").toList) ++ '\n' :: rest = _
    rw [List.append_assoc, List.append_assoc]
    rfl
  have h1 : isPre shaOpen (shaAssign old ++ '\n' :: rest) = true := by
    rw [e1]; exact isPre_append_self _ _
  have hdrop13 : List.drop shaOpen.length (shaAssign old ++ '\n' :: rest)
      = old ++ '\'' :: ')' :: '\n' :: rest := by
    rw [e1]; exact List.drop_left _ _
  have hbody : shaBody (shaAssign old ++ '\n' :: rest) = old := by
    unfold shaBody
    rw [hdrop13]
    rw [List.takeWhile_append_of_pos ?hpos, List.takeWhile_cons_of_neg (by simp),
      List.append_nil]
    case hpos =>
      intro x hx
      simp only [bne_iff_ne, ne_eq]
      exact fun h => hq (h ▸ hx)
  have hafter : shaAfter (shaAssign old ++ '\n' :: rest)
      = '\'' :: ')' :: '\n' :: rest := by
    unfold shaAfter
    rw [hdrop13, hbody, List.drop_left]
  have h2 : isPre shaClose (shaAfter (shaAssign old ++ '\n' :: rest)) = true := by
    rw [hafter]
    exact isPre_append_self shaClose ('\n' :: rest)
  rw [subSha_pos' repl h1 h2, hbody, hdrop13]
  have e2 : List.drop (old.length + 2) (old ++ '\'' :: ')' :: '\n' :: rest)
      = '\n' :: rest := by
    have hsplit : old ++ '\'' :: ')' :: '\n' :: rest
        = (old ++ ['\'', ')']) ++ '\n' :: rest := by simp
    rw [hsplit, List.drop_left' (by simp)]
  rw [e2]
  rw [subSha_cons_neg repl (Or.inl (isPre_cons_of_not_mem (by decide) (by decide) _))]

/-- Where the greedy `[^)]*` backtracks to: the unique valid position of the
pythonhosted literal in the paren body. -/
theorem lastValidK_eq {a r : Str}
    (honly : ∀ i < (a ++ urlLit ++ r).length,
      isPre urlLit ((a ++ urlLit ++ r).drop i) = true → i = a.length)
    (hr : headIsNot '"' r = true) :
    lastValidK (a ++ urlLit ++ r) = some a.length := by
  have hdropa : (a ++ urlLit ++ r).drop a.length = urlLit ++ r := by
    rw [List.append_assoc]
    exact List.drop_left _ _
  have hdropar : (a ++ urlLit ++ r).drop (a.length + urlLit.length) = r := by
    rw [List.append_assoc, List.drop_append urlLit.length, List.drop_left]
  have hval : validK (a ++ urlLit ++ r) a.length = true := by
    unfold validK
    rw [hdropa, hdropar, isPre_append_self, hr]
    rfl
  have hlt : a.length < (a ++ urlLit ++ r).length := by
    have h40 : 0 < urlLit.length := by decide
    simp only [List.length_append]
    omega
  have huniq : ∀ i < (a ++ urlLit ++ r).length,
      validK (a ++ urlLit ++ r) i = true → i = a.length := by
    intro i hi hv
    unfold validK at hv
    rw [Bool.and_eq_true] at hv
    exact honly i hi hv.1
  unfold lastValidK
  rw [filter_range_eq_single hlt hval huniq]
  rfl

/-- The well-formed source line is rewritten: the filename part after the
pythonhosted literal (up to the first quote or the closing paren) is replaced
by `sfx`, everything else is kept. -/
theorem srcSub_matchLine {a r : Str} (sfx rest : Str)
    (hAnp : ∀ x ∈ a ++ urlLit ++ r, x ≠ ')')
    (honly : ∀ i < (a ++ urlLit ++ r).length,
      isPre urlLit ((a ++ urlLit ++ r).drop i) = true → i = a.length)
    (hr : headIsNot '"' r = true) :
    srcSub sfx ((srcOpen ++ (a ++ urlLit ++ r) ++ [')']) ++ '\n' :: rest)
      = (srcOpen ++ (a ++ urlLit ++ sfx ++ r.dropWhile (fun d => d != '"')) ++ [')'])
        ++ '\n' :: srcSub sfx rest := by
  have e1 : (srcOpen ++ (a ++ urlLit ++ r) ++ [')']) ++ '\n' :: rest
      = srcOpen ++ ((a ++ urlLit ++ r) ++ ')' :: '\n' :: rest) := by
    rw [List.append_assoc, List.append_assoc]
    rfl
  have h1 : isPre srcOpen ((srcOpen ++ (a ++ urlLit ++ r) ++ [')']) ++ '\n' :: rest)
      = true := by
    rw [e1]; exact isPre_append_self _ _
  have hdrop8 : List.drop srcOpen.length
      ((srcOpen ++ (a ++ urlLit ++ r) ++ [')']) ++ '\n' :: rest)
      = (a ++ urlLit ++ r) ++ ')' :: '\n' :: rest := by
    rw [e1]; exact List.drop_left _ _
  have hpb : parenBody ((srcOpen ++ (a ++ urlLit ++ r) ++ [')']) ++ '\n' :: rest)
      = a ++ urlLit ++ r := by
    unfold parenBody
    rw [hdrop8]
    rw [List.takeWhile_append_of_pos ?hpos, List.takeWhile_cons_of_neg (by simp),
      List.append_nil]
    case hpos =>
      intro x hx
      simp only [bne_iff_ne, ne_eq]
      exact hAnp x hx
  have hpa : parenAfter ((srcOpen ++ (a ++ urlLit ++ r) ++ [')']) ++ '\n' :: rest)
      = ')' :: '\n' :: rest := by
    unfold parenAfter
    rw [hpb, hdrop8, List.drop_left]
  have hk : lastValidK
      (parenBody ((srcOpen ++ (a ++ urlLit ++ r) ++ [')']) ++ '\n' :: rest))
      = some a.length := by
    rw [hpb]
    exact lastValidK_eq honly hr
  rw [srcSub_pos' sfx h1 hk hpa, hpb]
  have htake : (a ++ urlLit ++ r).take a.length = a := by
    rw [List.append_assoc]
    exact List.take_left _ _
  have hdropar : (a ++ urlLit ++ r).drop (a.length + urlLit.length) = r := by
    rw [List.append_assoc, List.drop_append urlLit.length, List.drop_left]
  have hkept : keptTail (a ++ urlLit ++ r) a.length
      = r.dropWhile (fun d => d != '"') := by
    unfold keptTail
    rw [hdropar, drop_takeWhile_length]
  rw [htake, hkept]
  rw [srcSub_cons_neg sfx (Or.inl (isPre_cons_of_not_mem (by decide) (by decide) _))]
  simp

/-- Unfolding wrapper for `findSrcParenEnd` at a match. -/
theorem findEnd_pos' {s : Str} (h1 : isPre srcOpen s = true)
    (h2 : parenBody s ≠ []) (h3 : parenAfter s ≠ []) :
    findSrcParenEnd s = some (srcOpen.length + (parenBody s).length + 1) := by
  cases s with
  | nil =>
    rw [isPre_nonnil_nil (by decide)] at h1
    simp at h1
  | cons c cs =>
    simp only [findSrcParenEnd]
    rw [if_pos h1, if_pos ⟨h2, h3⟩]

/-- A clean line shifts the source-array search by its length. -/
theorem findEnd_skipLine :
    ∀ (l rest : Str), containsSub srcOpen l = false → '\n' ∉ l →
      findSrcParenEnd (l ++ '\n' :: rest)
        = (findSrcParenEnd rest).map (· + (l.length + 1)) := by
  intro l
  induction l with
  | nil =>
    intro rest _ _
    rw [List.nil_append]
    have h0 : isPre srcOpen ('\n' :: rest) = false :=
      isPre_cons_of_not_mem (by decide) (by decide) rest
    simp only [findSrcParenEnd]
    rw [if_neg (by rw [h0]; simp)]
    cases findSrcParenEnd rest <;> simp
  | cons c l' ih =>
    intro rest hl hnl
    have h0 : isPre srcOpen ((c :: l') ++ '\n' :: rest) = false := by
      cases hip : isPre srcOpen ((c :: l') ++ '\n' :: rest) with
      | false => rfl
      | true =>
        have := isPre_stop (by decide) hip
        rw [containsSub_head_false hl] at this
        simp at this
    rw [List.cons_append]
    simp only [findSrcParenEnd]
    rw [if_neg (by rw [← List.cons_append, h0]; simp)]
    rw [ih rest (containsSub_cons_false hl) (fun hm => hnl (List.mem_cons_of_mem _ hm))]
    cases findSrcParenEnd rest <;> simp
    omega

/-- The source-array search succeeds at the well-formed source line. -/
theorem findEnd_matchLine {A : Str} (rest : Str) (hA : A ≠ [])
    (hAnp : ∀ x ∈ A, x ≠ ')') :
    findSrcParenEnd ((srcOpen ++ A ++ [')']) ++ '\n' :: rest)
      = some (srcOpen.length + A.length + 1) := by
  have e1 : (srcOpen ++ A ++ [')']) ++ '\n' :: rest
      = srcOpen ++ (A ++ ')' :: '\n' :: rest) := by
    rw [List.append_assoc, List.append_assoc]
    rfl
  have h1 : isPre srcOpen ((srcOpen ++ A ++ [')']) ++ '\n' :: rest) = true := by
    rw [e1]; exact isPre_append_self _ _
  have hdrop8 : List.drop srcOpen.length ((srcOpen ++ A ++ [')']) ++ '\n' :: rest)
      = A ++ ')' :: '\n' :: rest := by
    rw [e1]; exact List.drop_left _ _
  have hpb : parenBody ((srcOpen ++ A ++ [')']) ++ '\n' :: rest) = A := by
    unfold parenBody
    rw [hdrop8]
    rw [List.takeWhile_append_of_pos ?hpos, List.takeWhile_cons_of_neg (by simp),
      List.append_nil]
    case hpos =>
      intro x hx
      simp only [bne_iff_ne, ne_eq]
      exact hAnp x hx
  have hpa : parenAfter ((srcOpen ++ A ++ [')']) ++ '\n' :: rest)
      = ')' :: '\n' :: rest := by
    unfold parenAfter
    rw [hpb, hdrop8, List.drop_left]
  rw [findEnd_pos' h1 (by rw [hpb]; exact hA) (by rw [hpa]; simp), hpb]

/-! ### Scanning across whole blocks of clean lines -/

theorem subField_skipAll {key : Str} (repl : Str) (hknl : '\n' ∉ key) :
    ∀ (ls : List Str) (rest : Str),
      (∀ l ∈ ls, containsSub key l = false ∧ '\n' ∉ l) →
      subField key repl (joinLines ls ++ rest)
        = joinLines ls ++ subField key repl rest := by
  intro ls
  induction ls with
  | nil => intro rest _; rfl
  | cons l ls' ih =>
    intro rest h
    show subField key repl ((l ++ '\n' :: joinLines ls') ++ rest)
      = (l ++ '\n' :: joinLines ls') ++ subField key repl rest
    rw [List.append_assoc, List.cons_append, List.append_assoc, List.cons_append]
    rw [subField_skipLine repl hknl l _ (h l (List.mem_cons_self l ls')).1
      (h l (List.mem_cons_self l ls')).2]
    rw [ih rest (fun x hx => h x (List.mem_cons_of_mem _ hx))]

theorem subField_join_id {key : Str} (repl : Str) (hknl : '\n' ∉ key)
    (ls : List Str) (h : ∀ l ∈ ls, containsSub key l = false ∧ '\n' ∉ l) :
    subField key repl (joinLines ls) = joinLines ls := by
  have h2 := subField_skipAll repl hknl ls [] h
  rw [List.append_nil, subField_nil, List.append_nil] at h2
  exact h2

theorem subLit_skipAll {pat : Str} (repl : Str) (hknl : '\n' ∉ pat) :
    ∀ (ls : List Str) (rest : Str),
      (∀ l ∈ ls, containsSub pat l = false ∧ '\n' ∉ l) →
      subLit pat repl (joinLines ls ++ rest)
        = joinLines ls ++ subLit pat repl rest := by
  intro ls
  induction ls with
  | nil => intro rest _; rfl
  | cons l ls' ih =>
    intro rest h
    show subLit pat repl ((l ++ '\n' :: joinLines ls') ++ rest)
      = (l ++ '\n' :: joinLines ls') ++ subLit pat repl rest
    rw [List.append_assoc, List.cons_append, List.append_assoc, List.cons_append]
    rw [subLit_skipLine repl hknl l _ (h l (List.mem_cons_self l ls')).1
      (h l (List.mem_cons_self l ls')).2]
    rw [ih rest (fun x hx => h x (List.mem_cons_of_mem _ hx))]

theorem subLit_join_id {pat : Str} (repl : Str) (hknl : '\n' ∉ pat)
    (ls : List Str) (h : ∀ l ∈ ls, containsSub pat l = false ∧ '\n' ∉ l) :
    subLit pat repl (joinLines ls) = joinLines ls := by
  have h2 := subLit_skipAll repl hknl ls [] h
  rw [List.append_nil, subLit_nil, List.append_nil] at h2
  exact h2

theorem subSha_skipAll (repl : Str) :
    ∀ (ls : List Str) (rest : Str),
      (∀ l ∈ ls, containsSub shaOpenParen l = false ∧ '\n' ∉ l) →
      subSha repl (joinLines ls ++ rest) = joinLines ls ++ subSha repl rest := by
  intro ls
  induction ls with
  | nil => intro rest _; rfl
  | cons l ls' ih =>
    intro rest h
    show subSha repl ((l ++ '\n' :: joinLines ls') ++ rest)
      = (l ++ '\n' :: joinLines ls') ++ subSha repl rest
    rw [List.append_assoc, List.cons_append, List.append_assoc, List.cons_append]
    rw [subSha_skipLine repl l _ (h l (List.mem_cons_self l ls')).1
      (h l (List.mem_cons_self l ls')).2]
    rw [ih rest (fun x hx => h x (List.mem_cons_of_mem _ hx))]

theorem subSha_join_id (repl : Str) (ls : List Str)
    (h : ∀ l ∈ ls, containsSub shaOpenParen l = false ∧ '\n' ∉ l) :
    subSha repl (joinLines ls) = joinLines ls := by
  have h2 := subSha_skipAll repl ls [] h
  rw [List.append_nil, subSha_nil, List.append_nil] at h2
  exact h2

theorem srcSub_skipAll (sfx : Str) :
    ∀ (ls : List Str) (rest : Str),
      (∀ l ∈ ls, containsSub srcOpen l = false ∧ '\n' ∉ l) →
      srcSub sfx (joinLines ls ++ rest) = joinLines ls ++ srcSub sfx rest := by
  intro ls
  induction ls with
  | nil => intro rest _; rfl
  | cons l ls' ih =>
    intro rest h
    show srcSub sfx ((l ++ '\n' :: joinLines ls') ++ rest)
      = (l ++ '\n' :: joinLines ls') ++ srcSub sfx rest
    rw [List.append_assoc, List.cons_append, List.append_assoc, List.cons_append]
    rw [srcSub_skipLine sfx l _ (h l (List.mem_cons_self l ls')).1
      (h l (List.mem_cons_self l ls')).2]
    rw [ih rest (fun x hx => h x (List.mem_cons_of_mem _ hx))]

theorem srcSub_join_id (sfx : Str) (ls : List Str)
    (h : ∀ l ∈ ls, containsSub srcOpen l = false ∧ '\n' ∉ l) :
    srcSub sfx (joinLines ls) = joinLines ls := by
  have h2 := srcSub_skipAll sfx ls [] h
  rw [List.append_nil, srcSub_nil, List.append_nil] at h2
  exact h2

theorem containsSub_skipAll {pat : Str} (hknl : '\n' ∉ pat) :
    ∀ (ls : List Str) (rest : Str),
      (∀ l ∈ ls, containsSub pat l = false) →
      containsSub pat (joinLines ls ++ rest) = containsSub pat rest := by
  intro ls
  induction ls with
  | nil => intro rest _; rfl
  | cons l ls' ih =>
    intro rest h
    show containsSub pat ((l ++ '\n' :: joinLines ls') ++ rest) = containsSub pat rest
    rw [List.append_assoc, List.cons_append]
    rw [containsSub_skipLine hknl l _ (h l (List.mem_cons_self l ls'))]
    exact ih rest (fun x hx => h x (List.mem_cons_of_mem _ hx))

theorem containsSub_join_none {pat : Str} (hp : pat ≠ []) (hknl : '\n' ∉ pat)
    (ls : List Str) (h : ∀ l ∈ ls, containsSub pat l = false) :
    containsSub pat (joinLines ls) = false := by
  have h2 := containsSub_skipAll hknl ls [] h
  rw [List.append_nil] at h2
  rw [h2]
  show isPre pat [] = false
  exact isPre_nonnil_nil hp

theorem findEnd_skipAll :
    ∀ (ls : List Str) (rest : Str),
      (∀ l ∈ ls, containsSub srcOpen l = false ∧ '\n' ∉ l) →
      findSrcParenEnd (joinLines ls ++ rest)
        = (findSrcParenEnd rest).map (· + (joinLines ls).length) := by
  intro ls
  induction ls with
  | nil =>
    intro rest _
    show findSrcParenEnd ([] ++ rest)
      = (findSrcParenEnd rest).map (· + (joinLines []).length)
    rw [List.nil_append]
    cases findSrcParenEnd rest <;> simp [joinLines]
  | cons l ls' ih =>
    intro rest h
    show findSrcParenEnd ((l ++ '\n' :: joinLines ls') ++ rest)
      = (findSrcParenEnd rest).map (· + (l ++ '\n' :: joinLines ls').length)
    rw [List.append_assoc, List.cons_append]
    rw [findEnd_skipLine l _ (h l (List.mem_cons_self l ls')).1
      (h l (List.mem_cons_self l ls')).2]
    rw [ih rest (fun x hx => h x (List.mem_cons_of_mem _ hx))]
    cases findSrcParenEnd rest <;> simp
    omega

/-! ### Canonical descriptor lines -/

/-- A well-formed source array line `source=(<a>https://files.pythonhosted.org/packages/<r>)`. -/
def srcLine (a r : Str) : Str := srcOpen ++ (a ++ urlLit ++ r) ++ [')']

/-- The source line after the Updater's URL rewrite: the filename run after
the literal (up to the first quote) replaced by `sfx`. -/
def newSrcLine (a r sfx : Str) : Str :=
  srcOpen ++ (a ++ urlLit ++ sfx ++ r.dropWhile (fun d => d != '"')) ++ [')']

/-- A descriptor line that never interacts with any of the Updater's four
rewrites: newline-free and containing none of the scanned-for openers. -/
def inertLine (l : Str) : Prop :=
  '\n' ∉ l ∧ containsSub pkgverKey l = false ∧ containsSub pkgrelKey l = false ∧
  containsSub srcOpen l = false ∧ containsSub shaOpenParen l = false

instance (l : Str) : Decidable (inertLine l) := by
  unfold inertLine
  exact inferInstance

theorem not_mem_append' {c : Char} {x y : Str} (hx : c ∉ x) (hy : c ∉ y) :
    c ∉ x ++ y := by
  intro h
  rcases List.mem_append.mp h with h' | h'
  · exact hx h'
  · exact hy h'

theorem containsSub_suffix {pat y : Str} (x : Str)
    (h : containsSub pat y = true) : containsSub pat (x ++ y) = true := by
  induction x with
  | nil => simpa using h
  | cons c cs ih =>
    show (isPre pat (c :: (cs ++ y)) || containsSub pat (cs ++ y)) = true
    rw [ih]
    simp

theorem containsSub_lift_line {pat y : Str} (l : Str)
    (h : containsSub pat y = true) : containsSub pat (l ++ '\n' :: y) = true := by
  have h2 := containsSub_suffix (l ++ ['\n']) h
  rw [List.append_assoc] at h2
  simpa using h2

theorem shaAssign_decomp (old : Str) :
    shaAssign old = shaOpenParen ++ ('\'' :: (old ++ ("')").toList)) := by
  show (shaOpen ++ old) ++ ("')").toList = _
  rfl

theorem containsSub_shaOpenParen_shaAssign (old : Str) (x : Str) :
    containsSub shaOpenParen (shaAssign old ++ x) = true := by
  rw [shaAssign_decomp, List.append_assoc]
  exact containsSub_self_append _ _

theorem containsSub_srcOpen_srcLine (a r : Str) (x : Str) :
    containsSub srcOpen (srcLine a r ++ x) = true := by
  have e : srcLine a r ++ x = srcOpen ++ (((a ++ urlLit ++ r) ++ [')']) ++ x) := by
    show (srcOpen ++ (a ++ urlLit ++ r) ++ [')']) ++ x = _
    simp [List.append_assoc]
  rw [e]
  exact containsSub_self_append _ _

/-- Line-shaped wrapper for the source rewrite. -/
theorem srcSub_matchLine2 {a r : Str} (sfx rest : Str)
    (hAnp : ∀ x ∈ a ++ urlLit ++ r, x ≠ ')')
    (honly : ∀ i < (a ++ urlLit ++ r).length,
      isPre urlLit ((a ++ urlLit ++ r).drop i) = true → i = a.length)
    (hr : headIsNot '"' r = true) :
    srcSub sfx (srcLine a r ++ '\n' :: rest)
      = newSrcLine a r sfx ++ '\n' :: srcSub sfx rest :=
  srcSub_matchLine sfx rest hAnp honly hr

/-- Line-shaped wrapper for the source-array search. -/
theorem findEnd_matchLine2 {a r : Str} (rest : Str)
    (hAnp : ∀ x ∈ a ++ urlLit ++ r, x ≠ ')') :
    findSrcParenEnd (srcLine a r ++ '\n' :: rest)
      = some (srcOpen.length + (a ++ urlLit ++ r).length + 1) := by
  refine findEnd_matchLine rest ?_ hAnp
  intro h
  have h1 : a ++ urlLit = [] := (List.append_eq_nil.mp h).1
  have h2 : urlLit = [] := (List.append_eq_nil.mp h1).2
  exact absurd h2 (by decide)

theorem joinLines_split (xs : List Str) (y : Str) (rest : List Str) :
    joinLines (xs ++ y :: rest) = joinLines xs ++ (y ++ '\n' :: joinLines rest) := by
  rw [joinLines_append, joinLines_cons]

theorem inert_pkgver {ls : List Str} (h : ∀ l ∈ ls, inertLine l) :
    ∀ l ∈ ls, containsSub pkgverKey l = false ∧ '\n' ∉ l :=
  fun l hl => ⟨(h l hl).2.1, (h l hl).1⟩

theorem inert_pkgrel {ls : List Str} (h : ∀ l ∈ ls, inertLine l) :
    ∀ l ∈ ls, containsSub pkgrelKey l = false ∧ '\n' ∉ l :=
  fun l hl => ⟨(h l hl).2.2.1, (h l hl).1⟩

theorem inert_src {ls : List Str} (h : ∀ l ∈ ls, inertLine l) :
    ∀ l ∈ ls, containsSub srcOpen l = false ∧ '\n' ∉ l :=
  fun l hl => ⟨(h l hl).2.2.2.1, (h l hl).1⟩

theorem inert_shaP {ls : List Str} (h : ∀ l ∈ ls, inertLine l) :
    ∀ l ∈ ls, containsSub shaOpenParen l = false ∧ '\n' ∉ l :=
  fun l hl => ⟨(h l hl).2.2.2.2, (h l hl).1⟩

theorem skipA_of_shaP {l : Str} (h : containsSub shaOpenParen l = false) :
    containsSub skipAssign l = false :=
  containsSub_false_of_pre (by decide) h

theorem inert_skipA {ls : List Str} (h : ∀ l ∈ ls, inertLine l) :
    ∀ l ∈ ls, containsSub skipAssign l = false :=
  fun l hl => skipA_of_shaP (h l hl).2.2.2.2

/-- The full in-memory rewrite of `update_pkgbuild` on a well-formed
descriptor whose checksum field carries an existing (non-sentinel) value:
branch (b) replaces the value in place; the version and release fields and
the source URL are rewritten, everything else is untouched. -/
theorem updateContent_existing {p1 p2 p3 p4 p5 : List Str}
    {v0 r0 a r old v : Str} (url sha : Str)
    (hp1 : ∀ l ∈ p1, inertLine l) (hp2 : ∀ l ∈ p2, inertLine l)
    (hp3 : ∀ l ∈ p3, inertLine l) (hp4 : ∀ l ∈ p4, inertLine l)
    (hp5 : ∀ l ∈ p5, inertLine l)
    (hv0 : v0 ≠ []) (hv0nl : '\n' ∉ v0)
    (hr0 : r0 ≠ []) (hr0nl : '\n' ∉ r0)
    (hr0ver : containsSub pkgverKey (pkgrelKey ++ r0) = false)
    (hsrcver : containsSub pkgverKey (srcLine a r) = false)
    (hsrcrel : containsSub pkgrelKey (srcLine a r) = false)
    (hAp : ∀ x ∈ a ++ urlLit ++ r, x ≠ ')')
    (hAnl : '\n' ∉ a ++ urlLit ++ r)
    (honly : ∀ i < (a ++ urlLit ++ r).length,
      isPre urlLit ((a ++ urlLit ++ r).drop i) = true → i = a.length)
    (hrq : headIsNot '"' r = true)
    (holdq : '\'' ∉ old) (holdnl : '\n' ∉ old)
    (holdver : containsSub pkgverKey (shaAssign old) = false)
    (holdrel : containsSub pkgrelKey (shaAssign old) = false)
    (holdsrc : containsSub srcOpen (shaAssign old) = false)
    (holdskip : containsSub skipAssign (shaAssign old) = false)
    (hv : v ≠ []) (hvnl : '\n' ∉ v)
    (hvrel : containsSub pkgrelKey (pkgverKey ++ v) = false)
    (hvsrc : containsSub srcOpen (pkgverKey ++ v) = false)
    (hvsha : containsSub shaOpenParen (pkgverKey ++ v) = false)
    (hsfxnl : '\n' ∉ urlSuffix url)
    (hnewsha : containsSub shaOpenParen (newSrcLine a r (urlSuffix url)) = false) :
    updateContent v url sha
        (joinLines (p1 ++ (pkgverKey ++ v0) :: (p2 ++ (pkgrelKey ++ r0) ::
          (p3 ++ srcLine a r :: (p4 ++ shaAssign old :: p5)))))
      = joinLines (p1 ++ (pkgverKey ++ v) :: (p2 ++ ("pkgrel=1").toList ::
          (p3 ++ newSrcLine a r (urlSuffix url) :: (p4 ++ shaAssign sha :: p5)))) := by
  have hrel0nl : '\n' ∉ pkgrelKey ++ r0 := not_mem_append' (by decide) hr0nl
  have hvline_nl : '\n' ∉ pkgverKey ++ v := not_mem_append' (by decide) hvnl
  have hsrc_nl : '\n' ∉ srcLine a r :=
    not_mem_append' (not_mem_append' (by decide) hAnl) (by decide)
  have hold_line_nl : '\n' ∉ shaAssign old :=
    not_mem_append' (not_mem_append' (by decide) holdnl) (by decide)
  have ha_nl : '\n' ∉ a :=
    fun hm => hAnl (List.mem_append_left _ (List.mem_append_left _ hm))
  have hr_nl : '\n' ∉ r := fun hm => hAnl (List.mem_append_right _ hm)
  have hdrop_nl : '\n' ∉ r.dropWhile (fun d => d != '"') :=
    fun hm => hr_nl ((List.dropWhile_sublist _).subset hm)
  have hnew_nl : '\n' ∉ newSrcLine a r (urlSuffix url) := by
    refine not_mem_append' (not_mem_append' (by decide) ?_) (by decide)
    exact not_mem_append' (not_mem_append' (not_mem_append' ha_nl (by decide)) hsfxnl)
      hdrop_nl
  have hvskip : containsSub skipAssign (pkgverKey ++ v) = false := skipA_of_shaP hvsha
  have hnewskip : containsSub skipAssign (newSrcLine a r (urlSuffix url)) = false :=
    skipA_of_shaP hnewsha
  simp only [joinLines_split]
  unfold updateContent
  -- stage 1: pkgver
  rw [subField_skipAll _ (by decide) p1 _ (inert_pkgver hp1)]
  rw [subField_matchLine _ _ (by decide) (by decide) hv0 hv0nl]
  rw [subField_skipAll _ (by decide) p2 _ (inert_pkgver hp2)]
  rw [subField_skipLine _ (by decide) _ _ hr0ver hrel0nl]
  rw [subField_skipAll _ (by decide) p3 _ (inert_pkgver hp3)]
  rw [subField_skipLine _ (by decide) _ _ hsrcver hsrc_nl]
  rw [subField_skipAll _ (by decide) p4 _ (inert_pkgver hp4)]
  rw [subField_skipLine _ (by decide) _ _ holdver hold_line_nl]
  rw [subField_join_id _ (by decide) p5 (inert_pkgver hp5)]
  -- stage 2: pkgrel
  rw [subField_skipAll _ (by decide) p1 _ (inert_pkgrel hp1)]
  rw [subField_skipLine _ (by decide) _ _ hvrel hvline_nl]
  rw [subField_skipAll _ (by decide) p2 _ (inert_pkgrel hp2)]
  rw [subField_matchLine _ _ (by decide) (by decide) hr0 hr0nl]
  rw [subField_skipAll _ (by decide) p3 _ (inert_pkgrel hp3)]
  rw [subField_skipLine _ (by decide) _ _ hsrcrel hsrc_nl]
  rw [subField_skipAll _ (by decide) p4 _ (inert_pkgrel hp4)]
  rw [subField_skipLine _ (by decide) _ _ holdrel hold_line_nl]
  rw [subField_join_id _ (by decide) p5 (inert_pkgrel hp5)]
  -- stage 3: source URL
  unfold sourceStage
  rw [if_pos ?hgsrc]
  case hgsrc =>
    exact containsSub_suffix _ (containsSub_lift_line _ (containsSub_suffix _
      (containsSub_lift_line _ (containsSub_suffix _
        (containsSub_srcOpen_srcLine a r _)))))
  rw [srcSub_skipAll _ p1 _ (inert_src hp1)]
  rw [srcSub_skipLine _ _ _ hvsrc hvline_nl]
  rw [srcSub_skipAll _ p2 _ (inert_src hp2)]
  rw [srcSub_skipLine _ _ _ (by decide) (by decide)]
  rw [srcSub_skipAll _ p3 _ (inert_src hp3)]
  rw [srcSub_matchLine2 _ _ hAp honly hrq]
  rw [srcSub_skipAll _ p4 _ (inert_src hp4)]
  rw [srcSub_skipLine _ _ _ holdsrc hold_line_nl]
  rw [srcSub_join_id _ p5 (inert_src hp5)]
  -- stage 4: checksum, branch (b)
  unfold shaStage
  rw [if_neg ?hgskip]
  case hgskip =>
    simp only [Bool.not_eq_true]
    rw [containsSub_skipAll (by decide) p1 _ (inert_skipA hp1)]
    rw [containsSub_skipLine (by decide) _ _ hvskip]
    rw [containsSub_skipAll (by decide) p2 _ (inert_skipA hp2)]
    rw [containsSub_skipLine (by decide) _ _ (by decide)]
    rw [containsSub_skipAll (by decide) p3 _ (inert_skipA hp3)]
    rw [containsSub_skipLine (by decide) _ _ hnewskip]
    rw [containsSub_skipAll (by decide) p4 _ (inert_skipA hp4)]
    rw [containsSub_skipLine (by decide) _ _ holdskip]
    exact containsSub_join_none (by decide) (by decide) p5 (inert_skipA hp5)
  rw [if_pos ?hgsha]
  case hgsha =>
    exact containsSub_suffix _ (containsSub_lift_line _ (containsSub_suffix _
      (containsSub_lift_line _ (containsSub_suffix _ (containsSub_lift_line _
        (containsSub_suffix _ (containsSub_shaOpenParen_shaAssign old _)))))))
  rw [subSha_skipAll _ p1 _ (inert_shaP hp1)]
  rw [subSha_skipLine _ _ _ hvsha hvline_nl]
  rw [subSha_skipAll _ p2 _ (inert_shaP hp2)]
  rw [subSha_skipLine _ _ _ (by decide) (by decide)]
  rw [subSha_skipAll _ p3 _ (inert_shaP hp3)]
  rw [subSha_skipLine _ _ _ hnewsha hnew_nl]
  rw [subSha_skipAll _ p4 _ (inert_shaP hp4)]
  rw [subSha_matchLine _ _ holdq]
  rw [subSha_join_id _ p5 (inert_shaP hp5)]

/-- The rewrite on a descriptor whose checksum field is the sentinel
`sha256sums=('SKIP')`: branch (a) replaces the placeholder outright. -/
theorem updateContent_sentinel {p1 p2 p3 p4 p5 : List Str}
    {v0 r0 a r v : Str} (url sha : Str)
    (hp1 : ∀ l ∈ p1, inertLine l) (hp2 : ∀ l ∈ p2, inertLine l)
    (hp3 : ∀ l ∈ p3, inertLine l) (hp4 : ∀ l ∈ p4, inertLine l)
    (hp5 : ∀ l ∈ p5, inertLine l)
    (hv0 : v0 ≠ []) (hv0nl : '\n' ∉ v0)
    (hr0 : r0 ≠ []) (hr0nl : '\n' ∉ r0)
    (hr0ver : containsSub pkgverKey (pkgrelKey ++ r0) = false)
    (hsrcver : containsSub pkgverKey (srcLine a r) = false)
    (hsrcrel : containsSub pkgrelKey (srcLine a r) = false)
    (hAp : ∀ x ∈ a ++ urlLit ++ r, x ≠ ')')
    (hAnl : '\n' ∉ a ++ urlLit ++ r)
    (honly : ∀ i < (a ++ urlLit ++ r).length,
      isPre urlLit ((a ++ urlLit ++ r).drop i) = true → i = a.length)
    (hrq : headIsNot '"' r = true)
    (hv : v ≠ []) (hvnl : '\n' ∉ v)
    (hvrel : containsSub pkgrelKey (pkgverKey ++ v) = false)
    (hvsrc : containsSub srcOpen (pkgverKey ++ v) = false)
    (hvsha : containsSub shaOpenParen (pkgverKey ++ v) = false)
    (hsfxnl : '\n' ∉ urlSuffix url)
    (hnewsha : containsSub shaOpenParen (newSrcLine a r (urlSuffix url)) = false) :
    updateContent v url sha
        (joinLines (p1 ++ (pkgverKey ++ v0) :: (p2 ++ (pkgrelKey ++ r0) ::
          (p3 ++ srcLine a r :: (p4 ++ skipAssign :: p5)))))
      = joinLines (p1 ++ (pkgverKey ++ v) :: (p2 ++ ("pkgrel=1").toList ::
          (p3 ++ newSrcLine a r (urlSuffix url) :: (p4 ++ shaAssign sha :: p5)))) := by
  have hrel0nl : '\n' ∉ pkgrelKey ++ r0 := not_mem_append' (by decide) hr0nl
  have hvline_nl : '\n' ∉ pkgverKey ++ v := not_mem_append' (by decide) hvnl
  have hsrc_nl : '\n' ∉ srcLine a r :=
    not_mem_append' (not_mem_append' (by decide) hAnl) (by decide)
  have ha_nl : '\n' ∉ a :=
    fun hm => hAnl (List.mem_append_left _ (List.mem_append_left _ hm))
  have hr_nl : '\n' ∉ r := fun hm => hAnl (List.mem_append_right _ hm)
  have hdrop_nl : '\n' ∉ r.dropWhile (fun d => d != '"') :=
    fun hm => hr_nl ((List.dropWhile_sublist _).subset hm)
  have hnew_nl : '\n' ∉ newSrcLine a r (urlSuffix url) := by
    refine not_mem_append' (not_mem_append' (by decide) ?_) (by decide)
    exact not_mem_append' (not_mem_append' (not_mem_append' ha_nl (by decide)) hsfxnl)
      hdrop_nl
  have hvskip : containsSub skipAssign (pkgverKey ++ v) = false := skipA_of_shaP hvsha
  have hnewskip : containsSub skipAssign (newSrcLine a r (urlSuffix url)) = false :=
    skipA_of_shaP hnewsha
  simp only [joinLines_split]
  unfold updateContent
  -- stage 1: pkgver
  rw [subField_skipAll _ (by decide) p1 _ (inert_pkgver hp1)]
  rw [subField_matchLine _ _ (by decide) (by decide) hv0 hv0nl]
  rw [subField_skipAll _ (by decide) p2 _ (inert_pkgver hp2)]
  rw [subField_skipLine _ (by decide) _ _ hr0ver hrel0nl]
  rw [subField_skipAll _ (by decide) p3 _ (inert_pkgver hp3)]
  rw [subField_skipLine _ (by decide) _ _ hsrcver hsrc_nl]
  rw [subField_skipAll _ (by decide) p4 _ (inert_pkgver hp4)]
  rw [subField_skipLine _ (by decide) _ _ (by decide) (by decide)]
  rw [subField_join_id _ (by decide) p5 (inert_pkgver hp5)]
  -- stage 2: pkgrel
  rw [subField_skipAll _ (by decide) p1 _ (inert_pkgrel hp1)]
  rw [subField_skipLine _ (by decide) _ _ hvrel hvline_nl]
  rw [subField_skipAll _ (by decide) p2 _ (inert_pkgrel hp2)]
  rw [subField_matchLine _ _ (by decide) (by decide) hr0 hr0nl]
  rw [subField_skipAll _ (by decide) p3 _ (inert_pkgrel hp3)]
  rw [subField_skipLine _ (by decide) _ _ hsrcrel hsrc_nl]
  rw [subField_skipAll _ (by decide) p4 _ (inert_pkgrel hp4)]
  rw [subField_skipLine _ (by decide) _ _ (by decide) (by decide)]
  rw [subField_join_id _ (by decide) p5 (inert_pkgrel hp5)]
  -- stage 3: source URL
  unfold sourceStage
  rw [if_pos ?hgsrc2]
  case hgsrc2 =>
    exact containsSub_suffix _ (containsSub_lift_line _ (containsSub_suffix _
      (containsSub_lift_line _ (containsSub_suffix _
        (containsSub_srcOpen_srcLine a r _)))))
  rw [srcSub_skipAll _ p1 _ (inert_src hp1)]
  rw [srcSub_skipLine _ _ _ hvsrc hvline_nl]
  rw [srcSub_skipAll _ p2 _ (inert_src hp2)]
  rw [srcSub_skipLine _ _ _ (by decide) (by decide)]
  rw [srcSub_skipAll _ p3 _ (inert_src hp3)]
  rw [srcSub_matchLine2 _ _ hAp honly hrq]
  rw [srcSub_skipAll _ p4 _ (inert_src hp4)]
  rw [srcSub_skipLine _ _ _ (by decide) (by decide)]
  rw [srcSub_join_id _ p5 (inert_src hp5)]
  -- stage 4: checksum, branch (a): the sentinel is present
  unfold shaStage
  rw [if_pos ?hgskip2]
  case hgskip2 =>
    exact containsSub_suffix _ (containsSub_lift_line _ (containsSub_suffix _
      (containsSub_lift_line _ (containsSub_suffix _ (containsSub_lift_line _
        (containsSub_suffix _ (containsSub_self_append _ _)))))))
  rw [subLit_skipAll _ (by decide) p1 _
    (fun l hl => ⟨inert_skipA hp1 l hl, (hp1 l hl).1⟩)]
  rw [subLit_skipLine _ (by decide) _ _ hvskip hvline_nl]
  rw [subLit_skipAll _ (by decide) p2 _
    (fun l hl => ⟨inert_skipA hp2 l hl, (hp2 l hl).1⟩)]
  rw [subLit_skipLine _ (by decide) _ _ (by decide) (by decide)]
  rw [subLit_skipAll _ (by decide) p3 _
    (fun l hl => ⟨inert_skipA hp3 l hl, (hp3 l hl).1⟩)]
  rw [subLit_skipLine _ (by decide) _ _ hnewskip hnew_nl]
  rw [subLit_skipAll _ (by decide) p4 _
    (fun l hl => ⟨inert_skipA hp4 l hl, (hp4 l hl).1⟩)]
  rw [subLit_matchLine _ _ (by decide) (by decide)]
  rw [subLit_join_id _ (by decide) p5
    (fun l hl => ⟨inert_skipA hp5 l hl, (hp5 l hl).1⟩)]

/-- The source-array search on the rewritten source line. -/
theorem findEnd_newSrcLine {a r sfx : Str} (rest : Str)
    (hsfxp : ')' ∉ sfx) (hAp : ∀ x ∈ a ++ urlLit ++ r, x ≠ ')') :
    findSrcParenEnd (newSrcLine a r sfx ++ '\n' :: rest)
      = some ((newSrcLine a r sfx).length) := by
  have ha_p : ')' ∉ a :=
    fun hm => hAp ')' (List.mem_append_left _ (List.mem_append_left _ hm)) rfl
  have hr_p : ')' ∉ r := fun hm => hAp ')' (List.mem_append_right _ hm) rfl
  have hAp' : ∀ x ∈ a ++ urlLit ++ sfx ++ r.dropWhile (fun d => d != '"'),
      x ≠ ')' := by
    intro x hx
    rcases List.mem_append.mp hx with hx1 | hx1
    · rcases List.mem_append.mp hx1 with hx2 | hx2
      · rcases List.mem_append.mp hx2 with hx3 | hx3
        · exact fun h => ha_p (h ▸ hx3)
        · intro h
          subst h
          exact absurd hx3 (by decide)
      · exact fun h => hsfxp (h ▸ hx2)
    · exact fun h => hr_p (h ▸ (List.dropWhile_sublist _).subset hx1)
  have hA' : a ++ urlLit ++ sfx ++ r.dropWhile (fun d => d != '"') ≠ [] := by
    intro h
    have h1 := (List.append_eq_nil.mp (List.append_eq_nil.mp
      (List.append_eq_nil.mp h).1).1).2
    exact absurd h1 (by decide)
  have h := findEnd_matchLine (A := a ++ urlLit ++ sfx ++ r.dropWhile
    (fun d => d != '"')) rest hA' hAp'
  have hlen : srcOpen.length
      + (a ++ urlLit ++ sfx ++ r.dropWhile (fun d => d != '"')).length + 1
      = (newSrcLine a r sfx).length := by
    show _ = (srcOpen ++ (a ++ urlLit ++ sfx ++ r.dropWhile (fun d => d != '"'))
      ++ [')']).length
    simp [List.length_append]
    omega
  rw [← hlen]
  exact h

/-- The rewrite on a descriptor with no checksum field at all: branch (c)
appends `sha256sums=('...')` immediately after the source array. -/
theorem updateContent_absent {p1 p2 p3 p4 : List Str}
    {v0 r0 a r v : Str} (url sha : Str)
    (hp1 : ∀ l ∈ p1, inertLine l) (hp2 : ∀ l ∈ p2, inertLine l)
    (hp3 : ∀ l ∈ p3, inertLine l) (hp4 : ∀ l ∈ p4, inertLine l)
    (hv0 : v0 ≠ []) (hv0nl : '\n' ∉ v0)
    (hr0 : r0 ≠ []) (hr0nl : '\n' ∉ r0)
    (hr0ver : containsSub pkgverKey (pkgrelKey ++ r0) = false)
    (hsrcver : containsSub pkgverKey (srcLine a r) = false)
    (hsrcrel : containsSub pkgrelKey (srcLine a r) = false)
    (hAp : ∀ x ∈ a ++ urlLit ++ r, x ≠ ')')
    (hAnl : '\n' ∉ a ++ urlLit ++ r)
    (honly : ∀ i < (a ++ urlLit ++ r).length,
      isPre urlLit ((a ++ urlLit ++ r).drop i) = true → i = a.length)
    (hrq : headIsNot '"' r = true)
    (hv : v ≠ []) (hvnl : '\n' ∉ v)
    (hvrel : containsSub pkgrelKey (pkgverKey ++ v) = false)
    (hvsrc : containsSub srcOpen (pkgverKey ++ v) = false)
    (hvsha : containsSub shaOpenParen (pkgverKey ++ v) = false)
    (hsfxnl : '\n' ∉ urlSuffix url) (hsfxp : ')' ∉ urlSuffix url)
    (hnewsha : containsSub shaOpenParen (newSrcLine a r (urlSuffix url)) = false) :
    updateContent v url sha
        (joinLines (p1 ++ (pkgverKey ++ v0) :: (p2 ++ (pkgrelKey ++ r0) ::
          (p3 ++ srcLine a r :: p4))))
      = joinLines (p1 ++ (pkgverKey ++ v) :: (p2 ++ ("pkgrel=1").toList ::
          (p3 ++ newSrcLine a r (urlSuffix url) :: shaAssign sha :: p4))) := by
  have hrel0nl : '\n' ∉ pkgrelKey ++ r0 := not_mem_append' (by decide) hr0nl
  have hvline_nl : '\n' ∉ pkgverKey ++ v := not_mem_append' (by decide) hvnl
  have hsrc_nl : '\n' ∉ srcLine a r :=
    not_mem_append' (not_mem_append' (by decide) hAnl) (by decide)
  have hvskip : containsSub skipAssign (pkgverKey ++ v) = false := skipA_of_shaP hvsha
  have hnewskip : containsSub skipAssign (newSrcLine a r (urlSuffix url)) = false :=
    skipA_of_shaP hnewsha
  simp only [joinLines_split]
  unfold updateContent
  -- stage 1: pkgver
  rw [subField_skipAll _ (by decide) p1 _ (inert_pkgver hp1)]
  rw [subField_matchLine _ _ (by decide) (by decide) hv0 hv0nl]
  rw [subField_skipAll _ (by decide) p2 _ (inert_pkgver hp2)]
  rw [subField_skipLine _ (by decide) _ _ hr0ver hrel0nl]
  rw [subField_skipAll _ (by decide) p3 _ (inert_pkgver hp3)]
  rw [subField_skipLine _ (by decide) _ _ hsrcver hsrc_nl]
  rw [subField_join_id _ (by decide) p4 (inert_pkgver hp4)]
  -- stage 2: pkgrel
  rw [subField_skipAll _ (by decide) p1 _ (inert_pkgrel hp1)]
  rw [subField_skipLine _ (by decide) _ _ hvrel hvline_nl]
  rw [subField_skipAll _ (by decide) p2 _ (inert_pkgrel hp2)]
  rw [subField_matchLine _ _ (by decide) (by decide) hr0 hr0nl]
  rw [subField_skipAll _ (by decide) p3 _ (inert_pkgrel hp3)]
  rw [subField_skipLine _ (by decide) _ _ hsrcrel hsrc_nl]
  rw [subField_join_id _ (by decide) p4 (inert_pkgrel hp4)]
  -- stage 3: source URL
  unfold sourceStage
  rw [if_pos ?hgsrc3]
  case hgsrc3 =>
    exact containsSub_suffix _ (containsSub_lift_line _ (containsSub_suffix _
      (containsSub_lift_line _ (containsSub_suffix _
        (containsSub_srcOpen_srcLine a r _)))))
  rw [srcSub_skipAll _ p1 _ (inert_src hp1)]
  rw [srcSub_skipLine _ _ _ hvsrc hvline_nl]
  rw [srcSub_skipAll _ p2 _ (inert_src hp2)]
  rw [srcSub_skipLine _ _ _ (by decide) (by decide)]
  rw [srcSub_skipAll _ p3 _ (inert_src hp3)]
  rw [srcSub_matchLine2 _ _ hAp honly hrq]
  rw [srcSub_join_id _ p4 (inert_src hp4)]
  -- stage 4: checksum, branch (c): no checksum assignment exists
  unfold shaStage
  rw [if_neg ?hgskip3]
  case hgskip3 =>
    simp only [Bool.not_eq_true]
    rw [containsSub_skipAll (by decide) p1 _ (inert_skipA hp1)]
    rw [containsSub_skipLine (by decide) _ _ hvskip]
    rw [containsSub_skipAll (by decide) p2 _ (inert_skipA hp2)]
    rw [containsSub_skipLine (by decide) _ _ (by decide)]
    rw [containsSub_skipAll (by decide) p3 _ (inert_skipA hp3)]
    rw [containsSub_skipLine (by decide) _ _ hnewskip]
    exact containsSub_join_none (by decide) (by decide) p4 (inert_skipA hp4)
  rw [if_neg ?hgsha3]
  case hgsha3 =>
    simp only [Bool.not_eq_true]
    rw [containsSub_skipAll (by decide) p1 _
      (fun l hl => (hp1 l hl).2.2.2.2)]
    rw [containsSub_skipLine (by decide) _ _ hvsha]
    rw [containsSub_skipAll (by decide) p2 _
      (fun l hl => (hp2 l hl).2.2.2.2)]
    rw [containsSub_skipLine (by decide) _ _ (by decide)]
    rw [containsSub_skipAll (by decide) p3 _
      (fun l hl => (hp3 l hl).2.2.2.2)]
    rw [containsSub_skipLine (by decide) _ _ hnewsha]
    exact containsSub_join_none (by decide) (by decide) p4
      (fun l hl => (hp4 l hl).2.2.2.2)
  -- the insertion point is right after the rewritten source line
  have hfind : findSrcParenEnd (joinLines p1 ++ ((pkgverKey ++ v) ++ '\n' ::
      (joinLines p2 ++ (("pkgrel=1").toList ++ '\n' ::
        (joinLines p3 ++ (newSrcLine a r (urlSuffix url) ++ '\n' :: joinLines p4))))))
      = some ((joinLines p1 ++ ((pkgverKey ++ v) ++ '\n' ::
          (joinLines p2 ++ (("pkgrel=1").toList ++ '\n' ::
            (joinLines p3 ++ newSrcLine a r (urlSuffix url)))))).length) := by
    rw [findEnd_skipAll p1 _ (inert_src hp1)]
    rw [findEnd_skipLine _ _ hvsrc hvline_nl]
    rw [findEnd_skipAll p2 _ (inert_src hp2)]
    rw [findEnd_skipLine _ _ (by decide) (by decide)]
    rw [findEnd_skipAll p3 _ (inert_src hp3)]
    rw [findEnd_newSrcLine _ hsfxp hAp]
    simp [List.length_append]
    omega
  unfold shaInsert
  rw [hfind]
  show (joinLines p1 ++ ((pkgverKey ++ v) ++ '\n' ::
      (joinLines p2 ++ (("pkgrel=1").toList ++ '\n' ::
        (joinLines p3 ++ (newSrcLine a r (urlSuffix url) ++ '\n' ::
          joinLines p4)))))).take
        ((joinLines p1 ++ ((pkgverKey ++ v) ++ '\n' ::
          (joinLines p2 ++ (("pkgrel=1").toList ++ '\n' ::
            (joinLines p3 ++ newSrcLine a r (urlSuffix url)))))).length)
      ++ '\n' :: shaAssign sha
      ++ (joinLines p1 ++ ((pkgverKey ++ v) ++ '\n' ::
        (joinLines p2 ++ (("pkgrel=1").toList ++ '\n' ::
          (joinLines p3 ++ (newSrcLine a r (urlSuffix url) ++ '\n' ::
            joinLines p4)))))).drop
        ((joinLines p1 ++ ((pkgverKey ++ v) ++ '\n' ::
          (joinLines p2 ++ (("pkgrel=1").toList ++ '\n' ::
            (joinLines p3 ++ newSrcLine a r (urlSuffix url)))))).length)
      = _
  have hsplit : joinLines p1 ++ ((pkgverKey ++ v) ++ '\n' ::
      (joinLines p2 ++ (("pkgrel=1").toList ++ '\n' ::
        (joinLines p3 ++ (newSrcLine a r (urlSuffix url) ++ '\n' :: joinLines p4)))))
      = (joinLines p1 ++ ((pkgverKey ++ v) ++ '\n' ::
          (joinLines p2 ++ (("pkgrel=1").toList ++ '\n' ::
            (joinLines p3 ++ newSrcLine a r (urlSuffix url))))))
        ++ '\n' :: joinLines p4 := by
    simp [List.append_assoc]
  rw [hsplit, List.take_left, List.drop_left]
  simp [List.append_assoc]
  rfl

/-! ### Counting occurrences in line-structured text -/

/-- No occurrence of a newline-free pattern starts inside a block of clean
lines, whatever follows the block. -/
theorem block_join {pat : Str} (hp : pat ≠ []) (hpnl : '\n' ∉ pat) :
    ∀ (ls : List Str), (∀ l ∈ ls, containsSub pat l = false ∧ '\n' ∉ l) →
      ∀ (tail : Str) (i : Nat), i < (joinLines ls).length →
      isPre pat ((joinLines ls ++ tail).drop i) = false := by
  intro ls
  induction ls with
  | nil =>
    intro _ tail i hi
    simp [joinLines] at hi
  | cons l ls' ih =>
    intro h tail i hi
    have hl := h l (List.mem_cons_self l ls')
    have hshape : joinLines (l :: ls') ++ tail
        = l ++ '\n' :: (joinLines ls' ++ tail) := by
      rw [joinLines_cons, List.append_assoc, List.cons_append]
    rw [hshape]
    rcases Nat.lt_trichotomy i l.length with hlt | heq | hgt
    · exact isPre_line_false hpnl hl.1 hlt
    · subst heq
      rw [List.drop_left]
      exact isPre_cons_of_not_mem hp hpnl _
    · have hi' : i = (l ++ ['\n']).length + (i - l.length - 1) := by
        simp
        omega
      have hsplit : l ++ '\n' :: (joinLines ls' ++ tail)
          = (l ++ ['\n']) ++ (joinLines ls' ++ tail) := by simp
      rw [hsplit, hi', List.drop_append]
      have hlen : i - l.length - 1 < (joinLines ls').length := by
        rw [joinLines_cons] at hi
        simp [List.length_append] at hi
        omega
      exact ih (fun x hx => h x (List.mem_cons_of_mem _ hx)) tail _ hlen

/-- In a single well-formed line the pattern occurs only at position 0. -/
theorem block_mid {pat mid : Str} (hp : pat ≠ []) (hpnl : '\n' ∉ pat)
    (hmidnl : '\n' ∉ mid)
    (honly : ∀ i < mid.length, isPre pat (mid.drop i) = true → i = 0) :
    ∀ (tail : Str) (i : Nat), 0 < i → i ≤ mid.length →
      isPre pat ((mid ++ '\n' :: tail).drop i) = false := by
  intro tail i hi0 hile
  rcases Nat.lt_or_ge i mid.length with hlt | hge
  · rw [List.drop_append_of_le_length (Nat.le_of_lt hlt)]
    cases hip : isPre pat (mid.drop i ++ '\n' :: tail) with
    | false => rfl
    | true =>
      have hmid := isPre_stop hpnl hip
      have := honly i hlt hmid
      omega
  · have heq : i = mid.length := by omega
    subst heq
    rw [List.drop_left]
    exact isPre_cons_of_not_mem hp hpnl _

/-- A newline-free pattern occurring in exactly one line of a
line-structured text occurs exactly once in the joined text. -/
theorem occCount_one_line {pat mid : Str} {ls1 ls2 : List Str}
    (hp : pat ≠ []) (hpnl : '\n' ∉ pat)
    (h1 : ∀ l ∈ ls1, containsSub pat l = false ∧ '\n' ∉ l)
    (h2 : ∀ l ∈ ls2, containsSub pat l = false ∧ '\n' ∉ l)
    (hmidnl : '\n' ∉ mid) (hhead : isPre pat mid = true)
    (honly : ∀ i < mid.length, isPre pat (mid.drop i) = true → i = 0) :
    occCount pat (joinLines (ls1 ++ mid :: ls2)) = 1 := by
  rw [joinLines_split]
  apply occCount_eq_one (j := (joinLines ls1).length)
  · simp [List.length_append]
  · rw [List.drop_left]
    exact isPre_append_right _ hhead
  · intro i hilen hip
    rcases Nat.lt_trichotomy i (joinLines ls1).length with hlt | heq | hgt
    · have hb := block_join hp hpnl ls1 h1 (mid ++ '\n' :: joinLines ls2) i hlt
      rw [hb] at hip
      simp at hip
    · exact heq
    · rcases Nat.lt_or_ge i ((joinLines ls1).length + mid.length + 1)
        with hlt2 | hge2
      · have ht : i = (joinLines ls1).length + (i - (joinLines ls1).length) := by
          omega
        rw [ht, List.drop_append] at hip
        have h0 : 0 < i - (joinLines ls1).length := by omega
        have hle : i - (joinLines ls1).length ≤ mid.length := by omega
        have hb := block_mid hp hpnl hmidnl honly (joinLines ls2)
          (i - (joinLines ls1).length) h0 hle
        rw [hb] at hip
        simp at hip
      · have hsplit : joinLines ls1 ++ (mid ++ '\n' :: joinLines ls2)
            = (joinLines ls1 ++ mid ++ ['\n']) ++ joinLines ls2 := by
          simp [List.append_assoc]
        have hlen3 : (joinLines ls1 ++ mid ++ ['\n']).length
            = (joinLines ls1).length + mid.length + 1 := by
          simp [List.length_append]
          omega
        have ht : i = (joinLines ls1 ++ mid ++ ['\n']).length
            + (i - ((joinLines ls1).length + mid.length + 1)) := by
          rw [hlen3]; omega
        rw [hsplit, ht, List.drop_append] at hip
        have hlt3 : i - ((joinLines ls1).length + mid.length + 1)
            < (joinLines ls2).length := by
          simp [List.length_append] at hilen
          omega
        have hb := block_join hp hpnl ls2 h2 []
          (i - ((joinLines ls1).length + mid.length + 1)) hlt3
        rw [List.append_nil] at hb
        rw [hb] at hip
        simp at hip

/-- A pattern occurs only at position 0 of itself. -/
theorem honly_self {pat : Str} :
    ∀ i < pat.length, isPre pat (pat.drop i) = true → i = 0 := by
  intro i hi hip
  have h1 := isPre_length hip
  rw [List.length_drop] at h1
  omega

theorem isPre_shaOpenParen_shaAssign (h : Str) :
    isPre shaOpenParen (shaAssign h) = true := by
  rw [shaAssign_decomp]
  exact isPre_append_self _ _

theorem split_noNl {a r : Str} (h : '\n' ∉ a ++ urlLit ++ r) :
    '\n' ∉ a ∧ '\n' ∉ r :=
  ⟨fun hm => h (List.mem_append_left _ (List.mem_append_left _ hm)),
   fun hm => h (List.mem_append_right _ hm)⟩

theorem newSrcLine_nl {a r sfx : Str} (ha : '\n' ∉ a) (hr : '\n' ∉ r)
    (hs : '\n' ∉ sfx) : '\n' ∉ newSrcLine a r sfx := by
  refine not_mem_append' (not_mem_append' (by decide) ?_) (by decide)
  exact not_mem_append' (not_mem_append' (not_mem_append' ha (by decide)) hs)
    (fun hm => hr ((List.dropWhile_sublist _).subset hm))

theorem shaAssign_ne_nil (h : Str) : shaAssign h ≠ [] := by
  intro he
  have h1 := (List.append_eq_nil.mp (List.append_eq_nil.mp he).1).1
  exact absurd h1 (by decide)

theorem shaAssign_nl {h : Str} (hnl : '\n' ∉ h) : '\n' ∉ shaAssign h :=
  not_mem_append' (not_mem_append' (by decide) hnl) (by decide)

/-- Exactly-one-checksum counting for a line-structured descriptor whose only
checksum-bearing line is `sha256sums=('<sha>')`. -/
theorem sha_counts {LS1 LS2 : List Str} {sha : Str}
    (hclean1 : ∀ l ∈ LS1, containsSub shaOpenParen l = false ∧ '\n' ∉ l)
    (hclean2 : ∀ l ∈ LS2, containsSub shaOpenParen l = false ∧ '\n' ∉ l)
    (hshanl : '\n' ∉ sha)
    (hshaOnce : ∀ i < (shaAssign sha).length,
      isPre shaOpenParen ((shaAssign sha).drop i) = true → i = 0) :
    occCount (shaAssign sha) (joinLines (LS1 ++ shaAssign sha :: LS2)) = 1 ∧
    occCount shaOpenParen (joinLines (LS1 ++ shaAssign sha :: LS2)) = 1 := by
  have hmidnl : '\n' ∉ shaAssign sha := shaAssign_nl hshanl
  constructor
  · refine occCount_one_line (shaAssign_ne_nil sha) hmidnl ?_ ?_ hmidnl
      (isPre_refl _) honly_self
    · exact fun l hl => ⟨containsSub_false_of_pre
        (isPre_shaOpenParen_shaAssign sha) (hclean1 l hl).1, (hclean1 l hl).2⟩
    · exact fun l hl => ⟨containsSub_false_of_pre
        (isPre_shaOpenParen_shaAssign sha) (hclean2 l hl).1, (hclean2 l hl).2⟩
  · exact occCount_one_line (by decide) (by decide) hclean1 hclean2 hmidnl
      (isPre_shaOpenParen_shaAssign sha) hshaOnce

theorem forall_mem_assemble {P : Str → Prop} {q1 q2 q3 q4 : List Str}
    {x y z : Str}
    (h1 : ∀ l ∈ q1, P l) (hx : P x) (h2 : ∀ l ∈ q2, P l) (hy : P y)
    (h3 : ∀ l ∈ q3, P l) (hz : P z) (h4 : ∀ l ∈ q4, P l) :
    ∀ l ∈ q1 ++ x :: (q2 ++ y :: (q3 ++ z :: q4)), P l := by
  intro l hl
  simp only [List.mem_append, List.mem_cons] at hl
  rcases hl with h | h
  · exact h1 l h
  rcases h with rfl | h
  · exact hx
  rcases h with h | h
  · exact h2 l h
  rcases h with rfl | h
  · exact hy
  rcases h with h | h
  · exact h3 l h
  rcases h with rfl | h
  · exact hz
  · exact h4 l h

/-- Well-formedness of the parts of a canonical Build Descriptor together
with the target version, download URL and digest the Updater is invoked
with.  These are exactly the side conditions under which the Python regex
rewrites act line-locally. -/
structure DescWF (p1 p2 p3 : List Str) (v0 r0 a r v url sha : Str) : Prop where
  inert1 : ∀ l ∈ p1, inertLine l
  inert2 : ∀ l ∈ p2, inertLine l
  inert3 : ∀ l ∈ p3, inertLine l
  v0ne : v0 ≠ []
  v0nl : '\n' ∉ v0
  r0ne : r0 ≠ []
  r0nl : '\n' ∉ r0
  r0ver : containsSub pkgverKey (pkgrelKey ++ r0) = false
  srcver : containsSub pkgverKey (srcLine a r) = false
  srcrel : containsSub pkgrelKey (srcLine a r) = false
  noParen : ∀ x ∈ a ++ urlLit ++ r, x ≠ ')'
  noNl : '\n' ∉ a ++ urlLit ++ r
  onlyUrl : ∀ i < (a ++ urlLit ++ r).length,
    isPre urlLit ((a ++ urlLit ++ r).drop i) = true → i = a.length
  rQuote : headIsNot '"' r = true
  vne : v ≠ []
  vnl : '\n' ∉ v
  vrel : containsSub pkgrelKey (pkgverKey ++ v) = false
  vsrc : containsSub srcOpen (pkgverKey ++ v) = false
  vsha : containsSub shaOpenParen (pkgverKey ++ v) = false
  sfxnl : '\n' ∉ urlSuffix url
  newsha : containsSub shaOpenParen (newSrcLine a r (urlSuffix url)) = false
  shanl : '\n' ∉ sha
  shaOnce : ∀ i < (shaAssign sha).length,
    isPre shaOpenParen ((shaAssign sha).drop i) = true → i = 0

/-- Well-formedness of the pre-existing checksum value in branch (b). -/
structure OldShaWF (old : Str) : Prop where
  oldq : '\'' ∉ old
  oldnl : '\n' ∉ old
  oldver : containsSub pkgverKey (shaAssign old) = false
  oldrel : containsSub pkgrelKey (shaAssign old) = false
  oldsrc : containsSub srcOpen (shaAssign old) = false
  oldskip : containsSub skipAssign (shaAssign old) = false

/-- The clean-line facts for the rewritten descriptor around its checksum
line, used by the exactly-one-count arguments. -/
theorem result_clean_front {p1 p2 p3 p4 : List Str} {v0 r0 a r v url sha : Str}
    (hwf : DescWF p1 p2 p3 v0 r0 a r v url sha)
    (hp4 : ∀ l ∈ p4, inertLine l) :
    ∀ l ∈ p1 ++ (pkgverKey ++ v) :: (p2 ++ ("pkgrel=1").toList ::
        (p3 ++ newSrcLine a r (urlSuffix url) :: p4)),
      containsSub shaOpenParen l = false ∧ '\n' ∉ l := by
  have hnl := split_noNl hwf.noNl
  refine forall_mem_assemble (inert_shaP hwf.inert1)
    ⟨hwf.vsha, not_mem_append' (by decide) hwf.vnl⟩
    (inert_shaP hwf.inert2) (by constructor <;> decide)
    (inert_shaP hwf.inert3)
    ⟨hwf.newsha, newSrcLine_nl hnl.1 hnl.2 hwf.sfxnl⟩
    (inert_shaP hp4)

/-! ### Claim C1 -/

/-- C1: for every Build Descriptor text in one of the three prior states —
checksum field equal to the sentinel `sha256sums=('SKIP')`, checksum field
present with an existing value, or no checksum field at all — a successful
run of the Descriptor Updater produces a descriptor containing exactly one
checksum assignment whose value is the digest reported by the remote index,
with the three rewrite branches applied in that priority order: the sentinel
is replaced, else the existing value is replaced in place, else a new
assignment is appended immediately after the source-URL assignment. -/
theorem C1_checksum_branch_coverage :
    (∀ (p1 p2 p3 p4 p5 : List Str) (v0 r0 a r v url sha : Str),
      DescWF p1 p2 p3 v0 r0 a r v url sha →
      (∀ l ∈ p4, inertLine l) → (∀ l ∈ p5, inertLine l) →
      updateContent v url sha (joinLines (p1 ++ (pkgverKey ++ v0) ::
          (p2 ++ (pkgrelKey ++ r0) ::
            (p3 ++ srcLine a r :: (p4 ++ skipAssign :: p5)))))
        = joinLines (p1 ++ (pkgverKey ++ v) :: (p2 ++ ("pkgrel=1").toList ::
            (p3 ++ newSrcLine a r (urlSuffix url) :: (p4 ++ shaAssign sha :: p5)))) ∧
      occCount (shaAssign sha) (updateContent v url sha
        (joinLines (p1 ++ (pkgverKey ++ v0) :: (p2 ++ (pkgrelKey ++ r0) ::
          (p3 ++ srcLine a r :: (p4 ++ skipAssign :: p5)))))) = 1 ∧
      occCount shaOpenParen (updateContent v url sha
        (joinLines (p1 ++ (pkgverKey ++ v0) :: (p2 ++ (pkgrelKey ++ r0) ::
          (p3 ++ srcLine a r :: (p4 ++ skipAssign :: p5)))))) = 1) ∧
    (∀ (p1 p2 p3 p4 p5 : List Str) (v0 r0 a r old v url sha : Str),
      DescWF p1 p2 p3 v0 r0 a r v url sha → OldShaWF old →
      (∀ l ∈ p4, inertLine l) → (∀ l ∈ p5, inertLine l) →
      updateContent v url sha (joinLines (p1 ++ (pkgverKey ++ v0) ::
          (p2 ++ (pkgrelKey ++ r0) ::
            (p3 ++ srcLine a r :: (p4 ++ shaAssign old :: p5)))))
        = joinLines (p1 ++ (pkgverKey ++ v) :: (p2 ++ ("pkgrel=1").toList ::
            (p3 ++ newSrcLine a r (urlSuffix url) :: (p4 ++ shaAssign sha :: p5)))) ∧
      occCount (shaAssign sha) (updateContent v url sha
        (joinLines (p1 ++ (pkgverKey ++ v0) :: (p2 ++ (pkgrelKey ++ r0) ::
          (p3 ++ srcLine a r :: (p4 ++ shaAssign old :: p5)))))) = 1 ∧
      occCount shaOpenParen (updateContent v url sha
        (joinLines (p1 ++ (pkgverKey ++ v0) :: (p2 ++ (pkgrelKey ++ r0) ::
          (p3 ++ srcLine a r :: (p4 ++ shaAssign old :: p5)))))) = 1) ∧
    (∀ (p1 p2 p3 p4 : List Str) (v0 r0 a r v url sha : Str),
      DescWF p1 p2 p3 v0 r0 a r v url sha →
      (∀ l ∈ p4, inertLine l) → ')' ∉ urlSuffix url →
      updateContent v url sha (joinLines (p1 ++ (pkgverKey ++ v0) ::
          (p2 ++ (pkgrelKey ++ r0) :: (p3 ++ srcLine a r :: p4))))
        = joinLines (p1 ++ (pkgverKey ++ v) :: (p2 ++ ("pkgrel=1").toList ::
            (p3 ++ newSrcLine a r (urlSuffix url) :: shaAssign sha :: p4))) ∧
      occCount (shaAssign sha) (updateContent v url sha
        (joinLines (p1 ++ (pkgverKey ++ v0) :: (p2 ++ (pkgrelKey ++ r0) ::
          (p3 ++ srcLine a r :: p4))))) = 1 ∧
      occCount shaOpenParen (updateContent v url sha
        (joinLines (p1 ++ (pkgverKey ++ v0) :: (p2 ++ (pkgrelKey ++ r0) ::
          (p3 ++ srcLine a r :: p4))))) = 1) := by
  refine ⟨?caseA, ?caseB, ?caseC⟩
  case caseA =>
    intro p1 p2 p3 p4 p5 v0 r0 a r v url sha hwf hp4 hp5
    have hchar := updateContent_sentinel url sha hwf.inert1 hwf.inert2 hwf.inert3
      hp4 hp5 hwf.v0ne hwf.v0nl hwf.r0ne hwf.r0nl hwf.r0ver hwf.srcver hwf.srcrel
      hwf.noParen hwf.noNl hwf.onlyUrl hwf.rQuote hwf.vne hwf.vnl hwf.vrel
      hwf.vsrc hwf.vsha hwf.sfxnl hwf.newsha
    have hre : (p1 ++ (pkgverKey ++ v) :: (p2 ++ ("pkgrel=1").toList ::
        (p3 ++ newSrcLine a r (urlSuffix url) :: (p4 ++ shaAssign sha :: p5))))
        = (p1 ++ (pkgverKey ++ v) :: (p2 ++ ("pkgrel=1").toList ::
          (p3 ++ newSrcLine a r (urlSuffix url) :: p4))) ++ shaAssign sha :: p5 := by
      simp
    have hcounts := sha_counts (result_clean_front hwf hp4) (inert_shaP hp5)
      hwf.shanl hwf.shaOnce
    rw [← hre] at hcounts
    exact ⟨hchar, by rw [hchar]; exact hcounts.1, by rw [hchar]; exact hcounts.2⟩
  case caseB =>
    intro p1 p2 p3 p4 p5 v0 r0 a r old v url sha hwf hold hp4 hp5
    have hchar := updateContent_existing url sha hwf.inert1 hwf.inert2 hwf.inert3
      hp4 hp5 hwf.v0ne hwf.v0nl hwf.r0ne hwf.r0nl hwf.r0ver hwf.srcver hwf.srcrel
      hwf.noParen hwf.noNl hwf.onlyUrl hwf.rQuote hold.oldq hold.oldnl
      hold.oldver hold.oldrel hold.oldsrc hold.oldskip hwf.vne hwf.vnl hwf.vrel
      hwf.vsrc hwf.vsha hwf.sfxnl hwf.newsha
    have hre : (p1 ++ (pkgverKey ++ v) :: (p2 ++ ("pkgrel=1").toList ::
        (p3 ++ newSrcLine a r (urlSuffix url) :: (p4 ++ shaAssign sha :: p5))))
        = (p1 ++ (pkgverKey ++ v) :: (p2 ++ ("pkgrel=1").toList ::
          (p3 ++ newSrcLine a r (urlSuffix url) :: p4))) ++ shaAssign sha :: p5 := by
      simp
    have hcounts := sha_counts (result_clean_front hwf hp4) (inert_shaP hp5)
      hwf.shanl hwf.shaOnce
    rw [← hre] at hcounts
    exact ⟨hchar, by rw [hchar]; exact hcounts.1, by rw [hchar]; exact hcounts.2⟩
  case caseC =>
    intro p1 p2 p3 p4 v0 r0 a r v url sha hwf hp4 hsfxp
    have hchar := updateContent_absent url sha hwf.inert1 hwf.inert2 hwf.inert3
      hp4 hwf.v0ne hwf.v0nl hwf.r0ne hwf.r0nl hwf.r0ver hwf.srcver hwf.srcrel
      hwf.noParen hwf.noNl hwf.onlyUrl hwf.rQuote hwf.vne hwf.vnl hwf.vrel
      hwf.vsrc hwf.vsha hwf.sfxnl hsfxp hwf.newsha
    have hre : (p1 ++ (pkgverKey ++ v) :: (p2 ++ ("pkgrel=1").toList ::
        (p3 ++ newSrcLine a r (urlSuffix url) :: shaAssign sha :: p4)))
        = (p1 ++ (pkgverKey ++ v) :: (p2 ++ ("pkgrel=1").toList ::
          (p3 ++ newSrcLine a r (urlSuffix url) :: ([] : List Str)))) ++ shaAssign sha :: p4 := by
      simp
    have hcounts := sha_counts
      (result_clean_front hwf (fun l hl => absurd hl (List.not_mem_nil l)))
      (inert_shaP hp4) hwf.shanl hwf.shaOnce
    rw [← hre] at hcounts
    exact ⟨hchar, by rw [hchar]; exact hcounts.1, by rw [hchar]; exact hcounts.2⟩

def wA : Str := ("\"").toList

def wR : Str := ("awscli-local-1.0.0.tar.gz\"").toList

def wUrl : Str :=
  ("https://files.pythonhosted.org/packages/ab/cd/awscli-local-2.0.0.tar.gz").toList

def wSha : Str := ("0123abcd").toList

def wOld : Str := ("deadbeef").toList

def wV : Str := ("2.0.0").toList

def wV0 : Str := ("1.0.0").toList

def wR0 : Str := ("2").toList

def wP1 : List Str := [("pkgname=awscli-local").toList]

/-- Witness for C1: the three branches exercised on one concrete
descriptor each. -/
theorem C1_checksum_branch_coverage_witness :
    (updateContent wV wUrl wSha (joinLines (wP1 ++ (pkgverKey ++ wV0) ::
        ([] ++ (pkgrelKey ++ wR0) ::
          ([] ++ srcLine wA wR :: ([] ++ skipAssign :: [])))))
      = joinLines (wP1 ++ (pkgverKey ++ wV) :: ([] ++ ("pkgrel=1").toList ::
          ([] ++ newSrcLine wA wR (urlSuffix wUrl) :: ([] ++ shaAssign wSha :: []))))) ∧
    (updateContent wV wUrl wSha (joinLines (wP1 ++ (pkgverKey ++ wV0) ::
        ([] ++ (pkgrelKey ++ wR0) ::
          ([] ++ srcLine wA wR :: ([] ++ shaAssign wOld :: [])))))
      = joinLines (wP1 ++ (pkgverKey ++ wV) :: ([] ++ ("pkgrel=1").toList ::
          ([] ++ newSrcLine wA wR (urlSuffix wUrl) :: ([] ++ shaAssign wSha :: []))))) ∧
    (updateContent wV wUrl wSha (joinLines (wP1 ++ (pkgverKey ++ wV0) ::
        ([] ++ (pkgrelKey ++ wR0) :: ([] ++ srcLine wA wR :: []))))
      = joinLines (wP1 ++ (pkgverKey ++ wV) :: ([] ++ ("pkgrel=1").toList ::
          ([] ++ newSrcLine wA wR (urlSuffix wUrl) :: shaAssign wSha :: [])))) := by
  refine ⟨?_, ?_, ?_⟩
  · exact (C1_checksum_branch_coverage.1 wP1 [] [] [] [] wV0 wR0 wA wR wV wUrl wSha
      (by constructor <;> decide) (by decide) (by decide)).1
  · exact (C1_checksum_branch_coverage.2.1 wP1 [] [] [] [] wV0 wR0 wA wR wOld wV
      wUrl wSha (by constructor <;> decide) (by constructor <;> decide)
      (by decide) (by decide)).1
  · exact (C1_checksum_branch_coverage.2.2 wP1 [] [] [] wV0 wR0 wA wR wV wUrl wSha
      (by constructor <;> decide) (by decide) (by decide)).1

/-! ### Stability of the rewrite under a second application -/

theorem isPre_take_left {p u w : Str} (h : isPre p (u ++ w) = true) :
    isPre (p.take u.length) u = true := by
  obtain ⟨t, ht⟩ := isPre_iff_append.mp h
  rcases le_or_lt u.length p.length with hle | hlt
  · have : u = (p ++ t).take u.length := by rw [← ht, List.take_left]
    rw [List.take_append_of_le_length hle] at this
    rw [← this]
    exact isPre_refl u
  · have hpt : p.take u.length = p := List.take_of_length_le (Nat.le_of_lt hlt)
    rw [hpt]
    have : u = (p ++ t).take u.length := by rw [← ht, List.take_left]
    rw [List.take_append_eq_append_take, List.take_of_length_le
      (Nat.le_of_lt hlt)] at this
    rw [this]
    exact isPre_append_self p _

theorem dropWhile_dropWhile (p : Char → Bool) (l : Str) :
    (l.dropWhile p).dropWhile p = l.dropWhile p := by
  induction l with
  | nil => rfl
  | cons c cs ih =>
    by_cases hc : p c = true
    · rw [List.dropWhile_cons_of_pos hc]
      exact ih
    · rw [List.dropWhile_cons_of_neg hc, List.dropWhile_cons_of_neg hc]

theorem newSrcLine_eq_srcLine (a r sfx : Str) :
    newSrcLine a r sfx = srcLine a (sfx ++ r.dropWhile (fun d => d != '"')) := by
  unfold newSrcLine srcLine
  simp [List.append_assoc]

theorem newSrcLine_stable {a r sfx : Str} (hq : '"' ∉ sfx) :
    newSrcLine a (sfx ++ r.dropWhile (fun d => d != '"')) sfx
      = newSrcLine a r sfx := by
  have h1 : (sfx ++ r.dropWhile (fun d => d != '"')).dropWhile (fun d => d != '"')
      = r.dropWhile (fun d => d != '"') := by
    rw [List.dropWhile_append_of_pos ?hpos, dropWhile_dropWhile]
    case hpos =>
      intro x hx
      simp only [bne_iff_ne, ne_eq]
      exact fun he => hq (he ▸ hx)
  unfold newSrcLine
  rw [h1]

theorem relOneKey : ("pkgrel=1").toList = pkgrelKey ++ ('1' :: []) := rfl

theorem headIsNot_append {c : Char} {s t : Str} (hs : s ≠ []) :
    headIsNot c (s ++ t) = headIsNot c s := by
  cases s with
  | nil => exact absurd rfl hs
  | cons x xs => rfl

/-- The pythonhosted literal has no nontrivial border: a match of a
length-`40 - j` leading segment of it against its own suffix fails for every
positive offset. -/
theorem urlLit_no_border :
    ∀ j < urlLit.length, 0 < j →
      isPre (urlLit.take (urlLit.drop j).length) (urlLit.drop j) = false := by
  decide

/-- Uniqueness of the literal's position survives replacing the tail of the
paren body, provided the new tail is literal-free. -/
theorem onlyUrl_swap {a r r' : Str}
    (honly : ∀ i < (a ++ urlLit ++ r).length,
      isPre urlLit ((a ++ urlLit ++ r).drop i) = true → i = a.length)
    (hnoL : ∀ t < r'.length, isPre urlLit (r'.drop t) = false) :
    ∀ i < (a ++ urlLit ++ r').length,
      isPre urlLit ((a ++ urlLit ++ r').drop i) = true → i = a.length := by
  intro i hi hip
  have h40 : urlLit.length = 40 := by decide
  rcases le_or_lt i a.length with hle | hgt
  · -- the window lies inside `a ++ urlLit`, shared with the original body
    have hcongr : isPre urlLit ((a ++ urlLit ++ r').drop i)
        = isPre urlLit ((a ++ urlLit ++ r).drop i) := by
      apply isPre_congr
      have e1 : (a ++ urlLit ++ r').drop i = (a ++ urlLit).drop i ++ r' :=
        List.drop_append_of_le_length (by simp [List.length_append]; omega)
      have e2 : (a ++ urlLit ++ r).drop i = (a ++ urlLit).drop i ++ r :=
        List.drop_append_of_le_length (by simp [List.length_append]; omega)
      rw [e1, e2, List.take_append_of_le_length, List.take_append_of_le_length]
      · rw [List.length_drop]
        simp [List.length_append]
        omega
      · rw [List.length_drop]
        simp [List.length_append]
        omega
    rw [hcongr] at hip
    refine honly i ?_ hip
    simp [List.length_append]
    omega
  · rcases Nat.lt_or_ge i (a.length + urlLit.length) with hlt2 | hge2
    · -- the window starts inside the literal: impossible, no border
      exfalso
      have hj : i = a.length + (i - a.length) := by omega
      have e1 : a ++ urlLit ++ r' = a ++ (urlLit ++ r') := by
        rw [List.append_assoc]
      rw [e1, hj, List.drop_append] at hip
      have e2 : (urlLit ++ r').drop (i - a.length)
          = urlLit.drop (i - a.length) ++ r' :=
        List.drop_append_of_le_length (by omega)
      rw [e2] at hip
      have htl := isPre_take_left hip
      rw [urlLit_no_border (i - a.length) (by omega) (by omega)] at htl
      simp at htl
    · -- the window lies inside the literal-free new tail
      exfalso
      have hj : i = (a ++ urlLit).length + (i - (a.length + urlLit.length)) := by
        simp [List.length_append]
        omega
      rw [hj, List.drop_append] at hip
      have hlt3 : i - (a.length + urlLit.length) < r'.length := by
        simp [List.length_append] at hi
        omega
      rw [hnoL _ hlt3] at hip
      simp at hip

theorem noParen_swap {a r sfx : Str} (hAp : ∀ x ∈ a ++ urlLit ++ r, x ≠ ')')
    (hs : ')' ∉ sfx) :
    ∀ x ∈ a ++ urlLit ++ (sfx ++ r.dropWhile (fun d => d != '"')), x ≠ ')' := by
  intro x hx
  rcases List.mem_append.mp hx with h1 | h1
  · exact hAp x (List.mem_append_left _ h1)
  · rcases List.mem_append.mp h1 with h2 | h2
    · exact fun he => hs (he ▸ h2)
    · exact hAp x (List.mem_append_right _ ((List.dropWhile_sublist _).subset h2))

theorem noNl_swap {a r sfx : Str} (hAnl : '\n' ∉ a ++ urlLit ++ r)
    (hsnl : '\n' ∉ sfx) :
    '\n' ∉ a ++ urlLit ++ (sfx ++ r.dropWhile (fun d => d != '"')) := by
  refine not_mem_append' (fun hm => hAnl (List.mem_append_left _ hm))
    (not_mem_append' hsnl ?_)
  exact fun hm => hAnl (List.mem_append_right _ ((List.dropWhile_sublist _).subset hm))

theorem headq_swap {sfx t : Str} (hne : sfx ≠ []) (hq : '"' ∉ sfx) :
    headIsNot '"' (sfx ++ t) = true := by
  cases sfx with
  | nil => exact absurd rfl hne
  | cons c cs =>
    show (c != '"') = true
    simp only [bne_iff_ne, ne_eq]
    exact fun he => hq (he ▸ List.mem_cons_self c cs)

/-- Conditions on the remote record values under which the rewritten
descriptor again satisfies the line-local well-formedness, so that a second
Updater run acts on it the same way. -/
structure RerunWF (a r v url sha : Str) : Prop where
  sfxne : urlSuffix url ≠ []
  sfxq : '"' ∉ urlSuffix url
  sfxp : ')' ∉ urlSuffix url
  noL2 : ∀ t < (urlSuffix url ++ r.dropWhile (fun d => d != '"')).length,
    isPre urlLit ((urlSuffix url ++ r.dropWhile (fun d => d != '"')).drop t) = false
  newver : containsSub pkgverKey (newSrcLine a r (urlSuffix url)) = false
  newrel : containsSub pkgrelKey (newSrcLine a r (urlSuffix url)) = false
  shaq : '\'' ∉ sha
  shaver : containsSub pkgverKey (shaAssign sha) = false
  sharel : containsSub pkgrelKey (shaAssign sha) = false
  shasrc : containsSub srcOpen (shaAssign sha) = false
  shaskip : containsSub skipAssign (shaAssign sha) = false

/-- A rewritten descriptor is a fixed point of the rewrite. -/
theorem updateContent_fix {p1 p2 p3 p4 p5 : List Str} {a r v : Str}
    (url sha : Str)
    (hp1 : ∀ l ∈ p1, inertLine l) (hp2 : ∀ l ∈ p2, inertLine l)
    (hp3 : ∀ l ∈ p3, inertLine l) (hp4 : ∀ l ∈ p4, inertLine l)
    (hp5 : ∀ l ∈ p5, inertLine l)
    (hAp : ∀ x ∈ a ++ urlLit ++ r, x ≠ ')')
    (hAnl : '\n' ∉ a ++ urlLit ++ r)
    (honly : ∀ i < (a ++ urlLit ++ r).length,
      isPre urlLit ((a ++ urlLit ++ r).drop i) = true → i = a.length)
    (hv : v ≠ []) (hvnl : '\n' ∉ v)
    (hvrel : containsSub pkgrelKey (pkgverKey ++ v) = false)
    (hvsrc : containsSub srcOpen (pkgverKey ++ v) = false)
    (hvsha : containsSub shaOpenParen (pkgverKey ++ v) = false)
    (hsfxnl : '\n' ∉ urlSuffix url)
    (hnewsha : containsSub shaOpenParen (newSrcLine a r (urlSuffix url)) = false)
    (hshanl : '\n' ∉ sha)
    (hrw : RerunWF a r v url sha) :
    updateContent v url sha (joinLines (p1 ++ (pkgverKey ++ v) ::
        (p2 ++ ("pkgrel=1").toList ::
          (p3 ++ newSrcLine a r (urlSuffix url) :: (p4 ++ shaAssign sha :: p5)))))
      = joinLines (p1 ++ (pkgverKey ++ v) :: (p2 ++ ("pkgrel=1").toList ::
          (p3 ++ newSrcLine a r (urlSuffix url) :: (p4 ++ shaAssign sha :: p5)))) := by
  have hnewsha' : containsSub shaOpenParen
      (newSrcLine a (urlSuffix url ++ r.dropWhile (fun d => d != '"'))
        (urlSuffix url)) = false := by
    rw [newSrcLine_stable hrw.sfxq]
    exact hnewsha
  have hsrcver' : containsSub pkgverKey
      (srcLine a (urlSuffix url ++ r.dropWhile (fun d => d != '"'))) = false := by
    rw [← newSrcLine_eq_srcLine]
    exact hrw.newver
  have hsrcrel' : containsSub pkgrelKey
      (srcLine a (urlSuffix url ++ r.dropWhile (fun d => d != '"'))) = false := by
    rw [← newSrcLine_eq_srcLine]
    exact hrw.newrel
  have hchar := @updateContent_existing p1 p2 p3 p4 p5 v ('1' :: []) a
    (urlSuffix url ++ r.dropWhile (fun d => d != '"')) sha v
    url sha hp1 hp2 hp3 hp4 hp5
    hv hvnl (by decide) (by decide) (by decide)
    hsrcver' hsrcrel'
    (noParen_swap hAp hrw.sfxp) (noNl_swap hAnl hsfxnl)
    (onlyUrl_swap honly hrw.noL2)
    (headq_swap hrw.sfxne hrw.sfxq)
    hrw.shaq hshanl hrw.shaver hrw.sharel hrw.shasrc hrw.shaskip
    hv hvnl hvrel hvsrc hvsha hsfxnl hnewsha'
  rw [← newSrcLine_eq_srcLine, ← relOneKey, newSrcLine_stable hrw.sfxq] at hchar
  exact hchar

/-! ### Claim C2 -/

/-- C2: running the Descriptor Updater twice in succession with the same
target version and the same remote record yields a Build Descriptor text
identical to running it once — in each of the three prior checksum states
the once-rewritten text is a fixed point of the rewrite, and the release
counter in the result is the literal `pkgrel=1`. -/
theorem C2_updater_idempotent :
    (∀ (p1 p2 p3 p4 p5 : List Str) (v0 r0 a r v url sha : Str),
      DescWF p1 p2 p3 v0 r0 a r v url sha → RerunWF a r v url sha →
      (∀ l ∈ p4, inertLine l) → (∀ l ∈ p5, inertLine l) →
      updateContent v url sha (updateContent v url sha
          (joinLines (p1 ++ (pkgverKey ++ v0) :: (p2 ++ (pkgrelKey ++ r0) ::
            (p3 ++ srcLine a r :: (p4 ++ skipAssign :: p5))))))
        = updateContent v url sha (joinLines (p1 ++ (pkgverKey ++ v0) ::
            (p2 ++ (pkgrelKey ++ r0) ::
              (p3 ++ srcLine a r :: (p4 ++ skipAssign :: p5))))) ∧
      updateContent v url sha (joinLines (p1 ++ (pkgverKey ++ v0) ::
          (p2 ++ (pkgrelKey ++ r0) ::
            (p3 ++ srcLine a r :: (p4 ++ skipAssign :: p5)))))
        = joinLines (p1 ++ (pkgverKey ++ v) :: (p2 ++ ("pkgrel=1").toList ::
            (p3 ++ newSrcLine a r (urlSuffix url) :: (p4 ++ shaAssign sha :: p5))))) ∧
    (∀ (p1 p2 p3 p4 p5 : List Str) (v0 r0 a r old v url sha : Str),
      DescWF p1 p2 p3 v0 r0 a r v url sha → OldShaWF old →
      RerunWF a r v url sha →
      (∀ l ∈ p4, inertLine l) → (∀ l ∈ p5, inertLine l) →
      updateContent v url sha (updateContent v url sha
          (joinLines (p1 ++ (pkgverKey ++ v0) :: (p2 ++ (pkgrelKey ++ r0) ::
            (p3 ++ srcLine a r :: (p4 ++ shaAssign old :: p5))))))
        = updateContent v url sha (joinLines (p1 ++ (pkgverKey ++ v0) ::
            (p2 ++ (pkgrelKey ++ r0) ::
              (p3 ++ srcLine a r :: (p4 ++ shaAssign old :: p5))))) ∧
      updateContent v url sha (joinLines (p1 ++ (pkgverKey ++ v0) ::
          (p2 ++ (pkgrelKey ++ r0) ::
            (p3 ++ srcLine a r :: (p4 ++ shaAssign old :: p5)))))
        = joinLines (p1 ++ (pkgverKey ++ v) :: (p2 ++ ("pkgrel=1").toList ::
            (p3 ++ newSrcLine a r (urlSuffix url) :: (p4 ++ shaAssign sha :: p5))))) ∧
    (∀ (p1 p2 p3 p4 : List Str) (v0 r0 a r v url sha : Str),
      DescWF p1 p2 p3 v0 r0 a r v url sha → RerunWF a r v url sha →
      (∀ l ∈ p4, inertLine l) →
      updateContent v url sha (updateContent v url sha
          (joinLines (p1 ++ (pkgverKey ++ v0) :: (p2 ++ (pkgrelKey ++ r0) ::
            (p3 ++ srcLine a r :: p4)))))
        = updateContent v url sha (joinLines (p1 ++ (pkgverKey ++ v0) ::
            (p2 ++ (pkgrelKey ++ r0) :: (p3 ++ srcLine a r :: p4)))) ∧
      updateContent v url sha (joinLines (p1 ++ (pkgverKey ++ v0) ::
          (p2 ++ (pkgrelKey ++ r0) :: (p3 ++ srcLine a r :: p4))))
        = joinLines (p1 ++ (pkgverKey ++ v) :: (p2 ++ ("pkgrel=1").toList ::
            (p3 ++ newSrcLine a r (urlSuffix url) :: shaAssign sha :: p4)))) := by
  refine ⟨?caseA, ?caseB, ?caseC⟩
  case caseA =>
    intro p1 p2 p3 p4 p5 v0 r0 a r v url sha hwf hrw hp4 hp5
    have hchar := updateContent_sentinel url sha hwf.inert1 hwf.inert2 hwf.inert3
      hp4 hp5 hwf.v0ne hwf.v0nl hwf.r0ne hwf.r0nl hwf.r0ver hwf.srcver hwf.srcrel
      hwf.noParen hwf.noNl hwf.onlyUrl hwf.rQuote hwf.vne hwf.vnl hwf.vrel
      hwf.vsrc hwf.vsha hwf.sfxnl hwf.newsha
    have hfix := updateContent_fix url sha hwf.inert1 hwf.inert2 hwf.inert3
      hp4 hp5 hwf.noParen hwf.noNl hwf.onlyUrl hwf.vne hwf.vnl hwf.vrel
      hwf.vsrc hwf.vsha hwf.sfxnl hwf.newsha hwf.shanl hrw
    refine ⟨?_, hchar⟩
    rw [hchar]
    exact hfix
  case caseB =>
    intro p1 p2 p3 p4 p5 v0 r0 a r old v url sha hwf hold hrw hp4 hp5
    have hchar := updateContent_existing url sha hwf.inert1 hwf.inert2 hwf.inert3
      hp4 hp5 hwf.v0ne hwf.v0nl hwf.r0ne hwf.r0nl hwf.r0ver hwf.srcver hwf.srcrel
      hwf.noParen hwf.noNl hwf.onlyUrl hwf.rQuote hold.oldq hold.oldnl
      hold.oldver hold.oldrel hold.oldsrc hold.oldskip hwf.vne hwf.vnl hwf.vrel
      hwf.vsrc hwf.vsha hwf.sfxnl hwf.newsha
    have hfix := updateContent_fix url sha hwf.inert1 hwf.inert2 hwf.inert3
      hp4 hp5 hwf.noParen hwf.noNl hwf.onlyUrl hwf.vne hwf.vnl hwf.vrel
      hwf.vsrc hwf.vsha hwf.sfxnl hwf.newsha hwf.shanl hrw
    refine ⟨?_, hchar⟩
    rw [hchar]
    exact hfix
  case caseC =>
    intro p1 p2 p3 p4 v0 r0 a r v url sha hwf hrw hp4
    have hchar := updateContent_absent url sha hwf.inert1 hwf.inert2 hwf.inert3
      hp4 hwf.v0ne hwf.v0nl hwf.r0ne hwf.r0nl hwf.r0ver hwf.srcver hwf.srcrel
      hwf.noParen hwf.noNl hwf.onlyUrl hwf.rQuote hwf.vne hwf.vnl hwf.vrel
      hwf.vsrc hwf.vsha hwf.sfxnl hrw.sfxp hwf.newsha
    have hfix := @updateContent_fix p1 p2 p3 [] p4 a r v url sha
      hwf.inert1 hwf.inert2 hwf.inert3
      (fun l hl => absurd hl (List.not_mem_nil l)) hp4
      hwf.noParen hwf.noNl hwf.onlyUrl hwf.vne hwf.vnl hwf.vrel
      hwf.vsrc hwf.vsha hwf.sfxnl hwf.newsha hwf.shanl hrw
    refine ⟨?_, hchar⟩
    rw [hchar]
    exact hfix

/-- Witness for C2: a second run on each of the three concrete descriptors
leaves the rewritten text unchanged. -/
theorem C2_updater_idempotent_witness :
    (updateContent wV wUrl wSha (updateContent wV wUrl wSha
        (joinLines (wP1 ++ (pkgverKey ++ wV0) :: ([] ++ (pkgrelKey ++ wR0) ::
          ([] ++ srcLine wA wR :: ([] ++ skipAssign :: []))))))
      = updateContent wV wUrl wSha (joinLines (wP1 ++ (pkgverKey ++ wV0) ::
          ([] ++ (pkgrelKey ++ wR0) ::
            ([] ++ srcLine wA wR :: ([] ++ skipAssign :: [])))))) ∧
    (updateContent wV wUrl wSha (updateContent wV wUrl wSha
        (joinLines (wP1 ++ (pkgverKey ++ wV0) :: ([] ++ (pkgrelKey ++ wR0) ::
          ([] ++ srcLine wA wR :: ([] ++ shaAssign wOld :: []))))))
      = updateContent wV wUrl wSha (joinLines (wP1 ++ (pkgverKey ++ wV0) ::
          ([] ++ (pkgrelKey ++ wR0) ::
            ([] ++ srcLine wA wR :: ([] ++ shaAssign wOld :: [])))))) ∧
    (updateContent wV wUrl wSha (updateContent wV wUrl wSha
        (joinLines (wP1 ++ (pkgverKey ++ wV0) :: ([] ++ (pkgrelKey ++ wR0) ::
          ([] ++ srcLine wA wR :: [])))))
      = updateContent wV wUrl wSha (joinLines (wP1 ++ (pkgverKey ++ wV0) ::
          ([] ++ (pkgrelKey ++ wR0) :: ([] ++ srcLine wA wR :: []))))) := by
  refine ⟨?_, ?_, ?_⟩
  · exact (C2_updater_idempotent.1 wP1 [] [] [] [] wV0 wR0 wA wR wV wUrl wSha
      (by constructor <;> decide) (by constructor <;> decide)
      (by decide) (by decide)).1
  · exact (C2_updater_idempotent.2.1 wP1 [] [] [] [] wV0 wR0 wA wR wOld wV
      wUrl wSha (by constructor <;> decide) (by constructor <;> decide)
      (by constructor <;> decide) (by decide) (by decide)).1
  · exact (C2_updater_idempotent.2.2 wP1 [] [] [] wV0 wR0 wA wR wV wUrl wSha
      (by constructor <;> decide) (by constructor <;> decide) (by decide)).1

/-! ### Claim C3 -/

/-- Unfolding of `update_main` once the record fetch has succeeded. -/
theorem update_main_some (hashFn : Str → Str) (env : UpdEnv)
    (version : Str) (verify : Bool) (url sha : Str)
    (h : get_package_info env.files = some (url, sha)) :
    update_main hashFn env version verify =
      if (verify && !(verify_checksum hashFn env.download sha)) = true
      then (1, env.pkgbuild)
      else match env.pkgbuild with
        | none => (1, none)
        | some c => (0, some (updateContent version url sha c)) := by
  unfold update_main
  rw [h]

/-- C3: every failing stage of the Updater pipeline — fetch failure or no
source distribution, and a checksum-verification failure when verification
is on — exits with status 1 and leaves the PKGBUILD exactly as it was; in
general a non-zero exit never changes the file. -/
theorem C3_failure_leaves_descriptor_unchanged
    (hashFn : Str → Str) (env : UpdEnv) (version : Str) (verify : Bool) :
    (get_package_info env.files = none →
      update_main hashFn env version verify = (1, env.pkgbuild)) ∧
    (∀ url sha : Str, get_package_info env.files = some (url, sha) →
      verify = true → verify_checksum hashFn env.download sha = false →
      update_main hashFn env version verify = (1, env.pkgbuild)) ∧
    ((update_main hashFn env version verify).1 ≠ 0 →
      (update_main hashFn env version verify).2 = env.pkgbuild) := by
  refine ⟨?_, ?_, ?_⟩
  · intro h
    unfold update_main
    rw [h]
  · intro url sha h hv hc
    subst hv
    rw [update_main_some hashFn env version true url sha h]
    rw [hc]
    rfl
  · intro h
    cases hg : get_package_info env.files with
    | none =>
      unfold update_main
      rw [hg]
    | some p =>
      obtain ⟨url, sha⟩ := p
      rw [update_main_some hashFn env version verify url sha hg] at h ⊢
      by_cases hv : (verify && !(verify_checksum hashFn env.download sha)) = true
      · rw [if_pos hv]
      · rw [if_neg hv] at h ⊢
        cases hp : env.pkgbuild with
        | none => rfl
        | some c =>
          rw [hp] at h
          exact absurd rfl h

def wHash : Str → Str := fun s => s

def wFile : Str := ("pkgname=awscli-local\npkgver=1.0.0\n").toList

/-- Witness for C3: a record-fetch failure and a checksum mismatch each
leave the concrete descriptor untouched with exit 1. -/
theorem C3_failure_leaves_descriptor_unchanged_witness :
    update_main wHash ⟨none, none, some wFile⟩ wV true = (1, some wFile) ∧
    update_main wHash ⟨some [⟨("sdist").toList, wUrl, wSha⟩], some (("zz").toList),
        some wFile⟩ wV true = (1, some wFile) := by
  constructor
  · exact (C3_failure_leaves_descriptor_unchanged wHash
      ⟨none, none, some wFile⟩ wV true).1 rfl
  · exact (C3_failure_leaves_descriptor_unchanged wHash
      ⟨some [⟨("sdist").toList, wUrl, wSha⟩], some (("zz").toList), some wFile⟩
      wV true).2.1 wUrl wSha (by decide) rfl (by decide)

/-! ### Claim C4 -/

/-- C4: with a readable version field and a successful fetch, the Checker
exits 0 and emits the current version, the latest version, and the
needs_update flag, which is the string "true" exactly when the two version
strings differ under plain (case-sensitive, format-agnostic) equality. -/
theorem C4_string_equality_check (file : Option Str) (cur lv : Str)
    (h : get_current_version file = some cur) :
    (check_main file (some lv)).exit = 0 ∧
    (check_main file (some lv)).outputs =
      [(("current_version").toList, cur), (("latest_version").toList, lv),
       (("needs_update").toList,
         if cur = lv then ("false").toList else ("true").toList)] ∧
    (((("needs_update").toList, ("true").toList)
        ∈ (check_main file (some lv)).outputs) ↔ cur ≠ lv) := by
  unfold check_main
  rw [h]
  refine ⟨rfl, rfl, ?_⟩
  constructor
  · intro hm he
    simp only [List.mem_cons, List.not_mem_nil, or_false] at hm
    rcases hm with h1 | h1 | h1
    · have h2 : ("needs_update").toList = ("current_version").toList :=
        congrArg Prod.fst h1
      exact absurd h2 (by decide)
    · have h2 : ("needs_update").toList = ("latest_version").toList :=
        congrArg Prod.fst h1
      exact absurd h2 (by decide)
    · rw [if_pos he] at h1
      have h2 : ("true").toList = ("false").toList := congrArg Prod.snd h1
      exact absurd h2 (by decide)
  · intro hne
    refine List.mem_cons.mpr (Or.inr (List.mem_cons.mpr (Or.inr
      (List.mem_cons.mpr (Or.inl ?_)))))
    rw [if_neg hne]

/-- Witness for C4: `pkgver=1.0.0` against remote `1.1.0` reports
needs_update true; the claim theorem applied at those inputs. -/
theorem C4_string_equality_check_witness :
    get_current_version (some (("pkgver=1.0.0\n").toList)) = some (("1.0.0").toList) ∧
    (((("needs_update").toList, ("true").toList)
        ∈ (check_main (some (("pkgver=1.0.0\n").toList))
            (some (("1.1.0").toList))).outputs) ↔
      ("1.0.0").toList ≠ ("1.1.0").toList) :=
  ⟨by decide,
   (C4_string_equality_check (some (("pkgver=1.0.0\n").toList))
     (("1.0.0").toList) (("1.1.0").toList) (by decide)).2.2⟩

/-! ### Claim C5 -/

theorem pkgverSearch_cons (c : Char) (cs : Str) :
    pkgverSearch (c :: cs)
      = if isPre pkgverKey (c :: cs)
            && headIsNot '\n' (List.drop pkgverKey.length (c :: cs)) then
          some ((List.drop pkgverKey.length (c :: cs)).takeWhile (fun d => d != '\n'))
        else pkgverSearch cs := rfl

theorem pkgverSearch_skipFront {s : Str} :
    ∀ p : Str,
      (∀ i < p.length, isPre pkgverKey ((p ++ s).drop i) = false) →
      pkgverSearch (p ++ s) = pkgverSearch s := by
  intro p
  induction p with
  | nil => intro _; rfl
  | cons c cs ih =>
    intro hfirst
    have h0 := hfirst 0 (by simp)
    rw [List.drop_zero] at h0
    show pkgverSearch (c :: (cs ++ s)) = pkgverSearch s
    rw [pkgverSearch_cons]
    rw [show c :: (cs ++ s) = (c :: cs) ++ s from rfl, h0, Bool.false_and, if_neg
      (by simp)]
    exact ih (fun i hi => by
      have := hfirst (i + 1) (by simp; omega)
      rw [show ((c :: cs) ++ s).drop (i + 1) = (cs ++ s).drop i from rfl] at this
      exact this)

theorem pkgverSearch_exact {x rest : Str} (hx : x ≠ []) (hxnl : '\n' ∉ x)
    (hrest : rest.takeWhile (fun d => d != '\n') = []) :
    pkgverSearch (pkgverKey ++ (x ++ rest)) = some x := by
  have hcs : pkgverKey ++ (x ++ rest)
      = 'p' :: (("kgver=").toList ++ (x ++ rest)) := rfl
  rw [hcs, pkgverSearch_cons, ← hcs]
  have h1 : isPre pkgverKey (pkgverKey ++ (x ++ rest)) = true :=
    isPre_append_self _ _
  have hdrop : List.drop pkgverKey.length (pkgverKey ++ (x ++ rest))
      = x ++ rest := List.drop_left _ _
  have hxpos : ∀ d ∈ x, (d != '\n') = true := by
    intro d hd
    simp only [bne_iff_ne, ne_eq]
    exact fun he => hxnl (he ▸ hd)
  have htake : (x ++ rest).takeWhile (fun d => d != '\n') = x := by
    rw [List.takeWhile_append_of_pos hxpos, hrest, List.append_nil]
  have hhead : headIsNot '\n' (x ++ rest) = true := by
    cases x with
    | nil => exact absurd rfl hx
    | cons xc xs =>
      show (xc != '\n') = true
      exact hxpos xc (List.mem_cons_self xc xs)
  rw [h1, hdrop, hhead, htake]
  rfl

/-- C5: for every descriptor text whose first `pkgver=` occurrence is
followed by the nonempty, newline-free value `x` ending the line, the
Checker's extraction returns exactly `x`. -/
theorem C5_checker_extracts_exactly (p x rest : Str)
    (hfirst : ∀ i < p.length,
      isPre pkgverKey ((p ++ (pkgverKey ++ (x ++ rest))).drop i) = false)
    (hx : x ≠ []) (hxnl : '\n' ∉ x)
    (hrest : rest.takeWhile (fun d => d != '\n') = []) :
    get_current_version (some (p ++ (pkgverKey ++ (x ++ rest)))) = some x := by
  show pkgverSearch (p ++ (pkgverKey ++ (x ++ rest))) = some x
  rw [pkgverSearch_skipFront p hfirst]
  exact pkgverSearch_exact hx hxnl hrest

/-- Witness for C5: extraction of `1.2.3` from a concrete three-line
descriptor. -/
theorem C5_checker_extracts_exactly_witness :
    get_current_version (some ((("pkgname=awscli-local\n").toList)
        ++ (pkgverKey ++ ((("1.2.3").toList) ++ (("\npkgrel=2\n").toList)))))
      = some (("1.2.3").toList) :=
  C5_checker_extracts_exactly (("pkgname=awscli-local\n").toList)
    (("1.2.3").toList) (("\npkgrel=2\n").toList)
    (by decide) (by decide) (by decide) (by decide)

/-! ### Claim C7 -/

theorem containsSub_of_validK {s : Str} {k : Nat}
    (hv : validK (parenBody s) k = true) : containsSub urlLit s = true := by
  unfold validK at hv
  rw [Bool.and_eq_true] at hv
  have h1 : isPre urlLit ((parenBody s).drop k) = true := hv.1
  have hk : k ≤ (parenBody s).length := by
    by_contra hgt
    have hnil : (parenBody s).drop k = [] := List.drop_eq_nil_of_le (by omega)
    rw [hnil, isPre_nonnil_nil (by decide)] at h1
    exact absurd h1 (by decide)
  have ht : List.drop srcOpen.length s
      = parenBody s ++ (List.drop srcOpen.length s).dropWhile (fun d => d != ')') := by
    unfold parenBody
    exact (List.takeWhile_append_dropWhile _ _).symm
  have h2 : List.drop k (List.drop srcOpen.length s)
      = (parenBody s).drop k
        ++ (List.drop srcOpen.length s).dropWhile (fun d => d != ')') := by
    conv_lhs => rw [ht]
    exact List.drop_append_of_le_length hk
  have h3 : isPre urlLit (s.drop (srcOpen.length + k)) = true := by
    rw [← List.drop_drop, h2]
    exact isPre_append_right _ h1
  exact containsSub_true_of_drop h3

theorem lastValidK_none_of_noUrl {s : Str} (h : containsSub urlLit s = false) :
    lastValidK (parenBody s) = none := by
  unfold lastValidK
  rw [filter_range_eq_nil ?h0]
  · rfl
  case h0 =>
    intro i _
    cases hv : validK (parenBody s) i with
    | false => rfl
    | true =>
      exfalso
      have hc := containsSub_of_validK hv
      rw [h] at hc
      exact absurd hc (by decide)

/-- When the pythonhosted literal occurs nowhere in the text, the source
rewrite matches nothing and returns the text unchanged. -/
theorem srcSub_id_of_noUrl (sfx : Str) :
    ∀ s : Str, containsSub urlLit s = false → srcSub sfx s = s := by
  intro s
  induction s with
  | nil => intro _; rfl
  | cons c cs ih =>
    intro h
    rw [srcSub_cons_neg sfx (Or.inr (Or.inl (lastValidK_none_of_noUrl h))),
      ih (containsSub_cons_false h)]

theorem sourceStage_id_of_noUrl (url : Str) {c : Str}
    (h : containsSub urlLit c = false) : sourceStage url c = c := by
  unfold sourceStage
  split
  · exact srcSub_id_of_noUrl _ c h
  · rfl

/-- C7: the source rewrite substitutes only the filename-bearing suffix of
the versioned download path: on a line-structured descriptor every line
other than the source line is kept verbatim, and inside the source line the
template text before the literal, the literal itself, the tail from the
first quote on, and the closing paren are kept; a descriptor not containing
the registry URL pattern is returned entirely unchanged. -/
theorem C7_source_url_frame :
    (∀ (ls1 ls2 : List Str) (a r url : Str),
      (∀ l ∈ ls1, containsSub srcOpen l = false ∧ '\n' ∉ l) →
      (∀ l ∈ ls2, containsSub srcOpen l = false ∧ '\n' ∉ l) →
      (∀ x ∈ a ++ urlLit ++ r, x ≠ ')') →
      (∀ i < (a ++ urlLit ++ r).length,
        isPre urlLit ((a ++ urlLit ++ r).drop i) = true → i = a.length) →
      headIsNot '"' r = true →
      sourceStage url (joinLines (ls1 ++ srcLine a r :: ls2))
        = joinLines (ls1 ++ newSrcLine a r (urlSuffix url) :: ls2)) ∧
    (∀ (url c : Str), containsSub urlLit c = false → sourceStage url c = c) := by
  constructor
  · intro ls1 ls2 a r url h1 h2 hAp honly hr
    have hc : containsSub srcOpen (joinLines (ls1 ++ srcLine a r :: ls2)) = true := by
      rw [joinLines_split]
      rw [containsSub_skipAll (by decide) ls1 _ (fun l hl => (h1 l hl).1)]
      exact containsSub_srcOpen_srcLine a r _
    unfold sourceStage
    rw [if_pos hc]
    rw [joinLines_split, joinLines_split]
    rw [srcSub_skipAll _ ls1 _ h1]
    rw [srcSub_matchLine2 _ _ hAp honly hr]
    rw [srcSub_join_id _ ls2 h2]
  · intro url c h
    exact sourceStage_id_of_noUrl url h

/-- Witness for C7: the concrete source line is rewritten in place between
untouched neighbour lines, and a non-registry source array is untouched. -/
theorem C7_source_url_frame_witness :
    sourceStage wUrl (joinLines (wP1 ++ srcLine wA wR :: []))
      = joinLines (wP1 ++ newSrcLine wA wR (urlSuffix wUrl) :: []) ∧
    sourceStage wUrl (("source=(\"https://example.com/a.tar.gz\")").toList)
      = ("source=(\"https://example.com/a.tar.gz\")").toList := by
  constructor
  · exact C7_source_url_frame.1 wP1 [] wA wR wUrl (by decide) (by decide)
      (by decide) (by decide) (by decide)
  · exact C7_source_url_frame.2 wUrl
      (("source=(\"https://example.com/a.tar.gz\")").toList) (by decide)

/-! ### Claim C8 -/

/-- C8 counterexample: the Checker does NOT make exactly one fetch attempt
on every invocation — when the descriptor is absent it exits before the
fetch, making zero attempts. -/
theorem C8_counterexample_zero_fetches :
    (check_main none (some (("1.0.0").toList))).exit = 1 ∧
    (check_main none (some (("1.0.0").toList))).fetches = 0 ∧
    ¬ (check_main none (some (("1.0.0").toList))).fetches = 1 := by decide

/-- C8 (amended): the Checker exits 0 exactly when both the version read
and the remote fetch succeed, and 1 otherwise; it makes at most one fetch
attempt per invocation — exactly one when the version field was read, and
zero when the run aborts before fetching. -/
theorem C8_checker_exit_and_single_fetch (file latest : Option Str) :
    ((check_main file latest).exit = 0 ↔
      (get_current_version file).isSome ∧ latest.isSome) ∧
    (check_main file latest).fetches
      = (if (get_current_version file).isSome then 1 else 0) ∧
    (check_main file latest).fetches ≤ 1 := by
  unfold check_main
  cases hg : get_current_version file with
  | none => cases latest <;> simp
  | some cur => cases latest <;> simp

/-! ### Claim C6 -/

theorem isPre_false_of_take_ne {pat s : Str} {n : Nat} (hn : n ≤ pat.length)
    (h : ¬ pat.take n = s.take n) : isPre pat s = false := by
  cases hp : isPre pat s with
  | false => rfl
  | true =>
    obtain ⟨t, ht⟩ := isPre_iff_append.mp hp
    rw [ht, List.take_append_of_le_length hn] at h
    exact absurd rfl h

/-- The array and default fields of a successfully parsed PKGBUILD, read
off the record `parse_pkgbuild` builds. -/
theorem parse_pkgbuild_fields {c : Str} {p : PkgInfo}
    (hp : parse_pkgbuild c = some p) :
    p.arch = (if arrayField (("arch=(").toList) c = []
      then [("any").toList] else arrayField (("arch=(").toList) c) ∧
    p.license = (if arrayField (("license=(").toList) c = []
      then [("unknown").toList] else arrayField (("license=(").toList) c) ∧
    p.depends = arrayField (("depends=(").toList) c ∧
    p.makedepends = arrayField (("makedepends=(").toList) c := by
  unfold parse_pkgbuild at hp
  cases h1 : fieldPkgname c with
  | none => rw [h1] at hp; exact Option.noConfusion hp
  | some n =>
    rw [h1] at hp
    cases h2 : fieldPkgver c with
    | none => rw [h2] at hp; exact Option.noConfusion hp
    | some v =>
      rw [h2] at hp
      cases h3 : fieldPkgrel c with
      | none => rw [h3] at hp; exact Option.noConfusion hp
      | some r =>
        rw [h3] at hp
        cases h4 : fieldPkgdesc c with
        | none => rw [h4] at hp; exact Option.noConfusion hp
        | some d =>
          rw [h4] at hp
          cases h5 : fieldUrl c with
          | none => rw [h5] at hp; exact Option.noConfusion hp
          | some u =>
            rw [h5] at hp
            obtain rfl := Option.some.inj hp
            exact ⟨rfl, rfl, rfl, rfl⟩

/-- When the parsed depends array is empty, no line of the generated
.SRCINFO starts with the depends key. -/
theorem srcinfo_no_depends_line {p : PkgInfo} (hD : p.depends = []) :
    ∀ l ∈ srcinfoLines p, isPre (("\tdepends = ").toList) l = false := by
  intro l hl
  unfold srcinfoLines at hl
  rw [hD] at hl
  rcases List.mem_append.mp hl with h | h
  · rcases List.mem_append.mp h with h | h
    · rcases List.mem_append.mp h with h | h
      · rcases List.mem_append.mp h with h | h
        · rcases List.mem_append.mp h with h | h
          · simp only [List.mem_cons, List.not_mem_nil, or_false] at h
            rcases h with rfl | rfl | rfl | rfl | rfl
            · exact isPre_false_of_take_ne (n := 1) (by decide)
                (by rw [List.take_append_of_le_length (by decide)]; decide)
            · exact isPre_false_of_take_ne (n := 2) (by decide)
                (by rw [List.take_append_of_le_length (by decide)]; decide)
            · exact isPre_false_of_take_ne (n := 2) (by decide)
                (by rw [List.take_append_of_le_length (by decide)]; decide)
            · exact isPre_false_of_take_ne (n := 2) (by decide)
                (by rw [List.take_append_of_le_length (by decide)]; decide)
            · exact isPre_false_of_take_ne (n := 2) (by decide)
                (by rw [List.take_append_of_le_length (by decide)]; decide)
          · obtain ⟨x, _, rfl⟩ := List.mem_map.mp h
            exact isPre_false_of_take_ne (n := 2) (by decide)
              (by rw [List.take_append_of_le_length (by decide)]; decide)
        · obtain ⟨x, _, rfl⟩ := List.mem_map.mp h
          exact isPre_false_of_take_ne (n := 2) (by decide)
            (by rw [List.take_append_of_le_length (by decide)]; decide)
      · exact absurd h (by simp)
    · obtain ⟨x, _, rfl⟩ := List.mem_map.mp h
      exact isPre_false_of_take_ne (n := 2) (by decide)
        (by rw [List.take_append_of_le_length (by decide)]; decide)
  · simp only [List.mem_cons, List.not_mem_nil, or_false] at h
    rcases h with rfl | rfl
    · exact isPre_nonnil_nil (by decide)
    · exact isPre_false_of_take_ne (n := 1) (by decide)
        (by rw [List.take_append_of_le_length (by decide)]; decide)

/-- When the parsed makedepends array is empty, no line of the generated
.SRCINFO starts with the makedepends key. -/
theorem srcinfo_no_makedepends_line {p : PkgInfo} (hM : p.makedepends = []) :
    ∀ l ∈ srcinfoLines p, isPre (("\tmakedepends = ").toList) l = false := by
  intro l hl
  unfold srcinfoLines at hl
  rw [hM] at hl
  rcases List.mem_append.mp hl with h | h
  · rcases List.mem_append.mp h with h | h
    · rcases List.mem_append.mp h with h | h
      · rcases List.mem_append.mp h with h | h
        · rcases List.mem_append.mp h with h | h
          · simp only [List.mem_cons, List.not_mem_nil, or_false] at h
            rcases h with rfl | rfl | rfl | rfl | rfl
            · exact isPre_false_of_take_ne (n := 1) (by decide)
                (by rw [List.take_append_of_le_length (by decide)]; decide)
            · exact isPre_false_of_take_ne (n := 2) (by decide)
                (by rw [List.take_append_of_le_length (by decide)]; decide)
            · exact isPre_false_of_take_ne (n := 2) (by decide)
                (by rw [List.take_append_of_le_length (by decide)]; decide)
            · exact isPre_false_of_take_ne (n := 2) (by decide)
                (by rw [List.take_append_of_le_length (by decide)]; decide)
            · exact isPre_false_of_take_ne (n := 2) (by decide)
                (by rw [List.take_append_of_le_length (by decide)]; decide)
          · obtain ⟨x, _, rfl⟩ := List.mem_map.mp h
            exact isPre_false_of_take_ne (n := 2) (by decide)
              (by rw [List.take_append_of_le_length (by decide)]; decide)
        · obtain ⟨x, _, rfl⟩ := List.mem_map.mp h
          exact isPre_false_of_take_ne (n := 2) (by decide)
            (by rw [List.take_append_of_le_length (by decide)]; decide)
      · obtain ⟨x, _, rfl⟩ := List.mem_map.mp h
        exact isPre_false_of_take_ne (n := 2) (by decide)
          (by rw [List.take_append_of_le_length (by decide)]; decide)
    · exact absurd h (by simp)
  · simp only [List.mem_cons, List.not_mem_nil, or_false] at h
    rcases h with rfl | rfl
    · exact isPre_nonnil_nil (by decide)
    · exact isPre_false_of_take_ne (n := 1) (by decide)
        (by rw [List.take_append_of_le_length (by decide)]; decide)

/-- C6: the tokenizer accepts single-quoted, double-quoted and bare tokens;
an empty or absent arch array is rendered as the single element `any` (and
the derived file then contains the line `arch = any`), an empty or absent
license array defaults to `unknown`, while empty depends and makedepends
arrays produce no `depends` / `makedepends` lines at all. -/
theorem C6_array_parsing_and_defaults :
    (∀ (a rest : Str), a ≠ [] → '\'' ∉ a →
      tokenize ('\'' :: (a ++ '\'' :: rest)) = a :: tokenize rest) ∧
    (∀ (b rest : Str), b ≠ [] → '"' ∉ b →
      tokenize ('"' :: (b ++ '"' :: rest)) = b :: tokenize rest) ∧
    (∀ (c : Char) (cs : Str), bareOK c = true →
      tokenize (c :: cs)
        = (c :: cs.takeWhile bareOK) :: tokenize (cs.dropWhile bareOK)) ∧
    (∀ (c : Str) (p : PkgInfo), parse_pkgbuild c = some p →
      (arrayField (("arch=(").toList) c = [] →
        p.arch = [("any").toList] ∧ ("\tarch = any").toList ∈ srcinfoLines p) ∧
      (arrayField (("license=(").toList) c = [] →
        p.license = [("unknown").toList]) ∧
      (arrayField (("depends=(").toList) c = [] →
        ∀ l ∈ srcinfoLines p, isPre (("\tdepends = ").toList) l = false) ∧
      (arrayField (("makedepends=(").toList) c = [] →
        ∀ l ∈ srcinfoLines p, isPre (("\tmakedepends = ").toList) l = false)) := by
  refine ⟨fun a rest ha hq => tokenize_cons_squote ha hq,
    fun b rest hb hq => tokenize_cons_dquote hb hq, ?_, ?_⟩
  · intro c cs hc
    have h1 : ¬(c = '\'') := by
      intro he
      subst he
      exact absurd hc (by decide)
    have h2 : ¬(c = '"') := by
      intro he
      subst he
      exact absurd hc (by decide)
    exact tokenize_cons_bare hc h1 h2
  · intro c p hp
    obtain ⟨hA, hL, hD, hM⟩ := parse_pkgbuild_fields hp
    refine ⟨?_, ?_, ?_, ?_⟩
    · intro harch
      rw [harch, if_pos rfl] at hA
      refine ⟨hA, ?_⟩
      unfold srcinfoLines
      rw [hA]
      refine List.mem_append.mpr (Or.inl (List.mem_append.mpr (Or.inl
        (List.mem_append.mpr (Or.inl (List.mem_append.mpr (Or.inl
          (List.mem_append.mpr (Or.inr ?_)))))))))
      exact List.mem_cons_self _ _
    · intro hlic
      rw [hlic, if_pos rfl] at hL
      exact hL
    · intro hdep
      rw [hdep] at hD
      exact srcinfo_no_depends_line hD
    · intro hmk
      rw [hmk] at hM
      exact srcinfo_no_makedepends_line hM

def wGenC : Str :=
  ("pkgname=awscli-local\npkgver=1.0.0\npkgrel=1\npkgdesc=\"CLI\"\nurl=\"https://x.org\"\narch=()\n").toList

def wGenP : PkgInfo :=
  { pkgname := ("awscli-local").toList, pkgver := ("1.0.0").toList,
    pkgrel := ("1").toList, pkgdesc := ("CLI").toList,
    url := ("https://x.org").toList,
    arch := [("any").toList], license := [("unknown").toList],
    depends := [], makedepends := [] }

/-- Witness for C6: the three token forms on concrete bodies, and a concrete
descriptor with `arch=()` whose parse defaults arch to `any` and renders the
`arch = any` line with no `depends` and no `makedepends` line. -/
theorem C6_array_parsing_and_defaults_witness :
    (tokenize ('\'' :: ((("py").toList) ++ '\'' :: []))
      = (("py").toList) :: tokenize []) ∧
    (tokenize ('"' :: ((("qt").toList) ++ '"' :: []))
      = (("qt").toList) :: tokenize []) ∧
    (tokenize ('b' :: (("are x").toList))
      = ('b' :: (("are x").toList).takeWhile bareOK)
        :: tokenize ((("are x").toList).dropWhile bareOK)) ∧
    (wGenP.arch = [("any").toList]
      ∧ ("\tarch = any").toList ∈ srcinfoLines wGenP) ∧
    (∀ l ∈ srcinfoLines wGenP, isPre (("\tdepends = ").toList) l = false) ∧
    (∀ l ∈ srcinfoLines wGenP, isPre (("\tmakedepends = ").toList) l = false) :=
  ⟨C6_array_parsing_and_defaults.1 (("py").toList) [] (by decide) (by decide),
   C6_array_parsing_and_defaults.2.1 (("qt").toList) [] (by decide) (by decide),
   C6_array_parsing_and_defaults.2.2.1 'b' (("are x").toList) (by decide),
   (C6_array_parsing_and_defaults.2.2.2 wGenC wGenP (by decide)).1 (by decide),
   (C6_array_parsing_and_defaults.2.2.2 wGenC wGenP (by decide)).2.2.1 (by decide),
   (C6_array_parsing_and_defaults.2.2.2 wGenC wGenP (by decide)).2.2.2 (by decide)⟩

/-! ### Claim C9 -/

theorem intercalate_cons_cons (sep x y : Str) (zs : List Str) :
    List.intercalate sep (x :: y :: zs) = x ++ sep ++ List.intercalate sep (y :: zs) := by
  show (List.intersperse sep (x :: y :: zs)).flatten = _
  rw [show List.intersperse sep (x :: y :: zs)
      = x :: sep :: List.intersperse sep (y :: zs) from rfl]
  show x ++ (sep ++ (List.intersperse sep (y :: zs)).flatten) = _
  rw [List.append_assoc]
  rfl

theorem intercalate_snoc (sep y : Str) :
    ∀ front : List Str, front ≠ [] →
      List.intercalate sep (front ++ [y])
        = List.intercalate sep front ++ sep ++ y := by
  intro front
  induction front with
  | nil => intro h; exact absurd rfl h
  | cons x xs ih =>
    intro _
    cases xs with
    | nil =>
      rw [show (([x] : List Str) ++ [y]) = [x, y] from rfl, intercalate_cons_cons]
      show x ++ sep ++ (y ++ []) = (x ++ []) ++ sep ++ y
      simp
    | cons z zs =>
      rw [show ((x :: z :: zs) ++ [y]) = x :: (z :: (zs ++ [y])) from rfl]
      rw [intercalate_cons_cons sep x z (zs ++ [y]),
        intercalate_cons_cons sep x z zs]
      rw [show (z :: (zs ++ [y])) = (z :: zs) ++ [y] from rfl]
      rw [ih (by simp)]
      simp [List.append_assoc]

/-- C9: the Regenerator is a pure function of the descriptor text — two runs
on the same text give byte-identical output — and on a parseable descriptor
the rendering ends in an empty separator line, the pkgname trailer, and a
trailing newline. -/
theorem C9_regenerator_deterministic (file : Option Str) :
    gen_main file = gen_main file ∧
    (∀ (c : Str) (p : PkgInfo), file = some c → parse_pkgbuild c = some p →
      gen_main file = (0, some (generate_srcinfo p)) ∧
      ∃ t : Str, generate_srcinfo p
        = t ++ '\n' :: '\n' :: (("pkgname = ").toList ++ (p.pkgname ++ ['\n']))) := by
  refine ⟨rfl, ?_⟩
  intro c p hf hp
  subst hf
  constructor
  · show (match parse_pkgbuild c with
      | none => ((1 : Nat), (none : Option Str))
      | some q => (0, some (generate_srcinfo q))) = (0, some (generate_srcinfo p))
    rw [hp]
  · refine ⟨List.intercalate ['\n']
      ([("pkgbase = ").toList ++ p.pkgname,
        ("\tpkgdesc = ").toList ++ p.pkgdesc,
        ("\tpkgver = ").toList ++ p.pkgver,
        ("\tpkgrel = ").toList ++ p.pkgrel,
        ("\turl = ").toList ++ p.url]
      ++ p.arch.map (fun a => ("\tarch = ").toList ++ a)
      ++ p.license.map (fun a => ("\tlicense = ").toList ++ a)
      ++ p.depends.map (fun a => ("\tdepends = ").toList ++ a)
      ++ p.makedepends.map (fun a => ("\tmakedepends = ").toList ++ a)), ?_⟩
    unfold generate_srcinfo
    have hs : srcinfoLines p
        = (([("pkgbase = ").toList ++ p.pkgname,
            ("\tpkgdesc = ").toList ++ p.pkgdesc,
            ("\tpkgver = ").toList ++ p.pkgver,
            ("\tpkgrel = ").toList ++ p.pkgrel,
            ("\turl = ").toList ++ p.url]
          ++ p.arch.map (fun a => ("\tarch = ").toList ++ a)
          ++ p.license.map (fun a => ("\tlicense = ").toList ++ a)
          ++ p.depends.map (fun a => ("\tdepends = ").toList ++ a)
          ++ p.makedepends.map (fun a => ("\tmakedepends = ").toList ++ a))
          ++ [[]]) ++ [("pkgname = ").toList ++ p.pkgname] := by
      unfold srcinfoLines
      simp [List.append_assoc, List.singleton_append, List.cons_append]
    rw [hs]
    rw [intercalate_snoc ['\n'] (("pkgname = ").toList ++ p.pkgname) _
      (by intro h; exact absurd (List.append_eq_nil.mp h).2 (by decide))]
    rw [intercalate_snoc ['\n'] [] _
      (by intro h;
          exact absurd (List.append_eq_nil.mp
            (List.append_eq_nil.mp
              (List.append_eq_nil.mp (List.append_eq_nil.mp h).1).1).1).1
            (List.cons_ne_nil _ _))]
    simp [List.append_assoc]

/-- Witness for C9: the concrete descriptor renders to the expected text,
twice identically, ending in the pkgname trailer and a newline. -/
theorem C9_regenerator_deterministic_witness :
    gen_main (some wGenC) = gen_main (some wGenC) ∧
    (gen_main (some wGenC) = (0, some (generate_srcinfo wGenP)) ∧
      ∃ t : Str, generate_srcinfo wGenP
        = t ++ '\n' :: '\n' :: (("pkgname = ").toList
            ++ ((wGenP.pkgname) ++ ['\n']))) :=
  ⟨(C9_regenerator_deterministic (some wGenC)).1,
   (C9_regenerator_deterministic (some wGenC)).2 wGenC wGenP rfl (by decide)⟩

/-! ### Claim C10 -/

/-- When every occurrence of `key` in the text is followed by an immediate
stopping character (an empty capture), the extraction fails. -/
theorem extractRun_none {key : Str} {stop : Char → Bool} {nc : Bool} :
    ∀ s : Str,
      (∀ i, isPre key (s.drop i) = true →
        ((s.drop i).drop key.length).takeWhile (fun d => !stop d) = []) →
      extractRun key stop nc s = none := by
  intro s
  induction s with
  | nil => intro _; rfl
  | cons c cs ih =>
    intro h
    show (if isPre key (c :: cs) = true then
        if (List.drop key.length (c :: cs)).takeWhile (fun d => !stop d) ≠ []
            ∧ (nc = false ∨ (List.drop key.length (c :: cs)).drop
                ((List.drop key.length (c :: cs)).takeWhile (fun d => !stop d)).length ≠ [])
          then some ((List.drop key.length (c :: cs)).takeWhile (fun d => !stop d))
          else extractRun key stop nc cs
      else extractRun key stop nc cs) = none
    have hrec : extractRun key stop nc cs = none := by
      refine ih (fun i hi => ?_)
      have := h (i + 1) (by
        rw [show (c :: cs).drop (i + 1) = cs.drop i from rfl]
        exact hi)
      rw [show (c :: cs).drop (i + 1) = cs.drop i from rfl] at this
      exact this
    by_cases hp : isPre key (c :: cs) = true
    · rw [if_pos hp]
      have hb := h 0 (by rw [List.drop_zero]; exact hp)
      rw [List.drop_zero] at hb
      rw [if_neg (by
        intro hcon
        exact absurd hb hcon.1)]
      exact hrec
    · rw [if_neg hp]
      exact hrec

theorem parse_pkgbuild_none_of_desc {c : Str} (hd : fieldPkgdesc c = none) :
    parse_pkgbuild c = none := by
  unfold parse_pkgbuild
  rw [hd]
  cases fieldPkgname c <;> cases fieldPkgver c <;> cases fieldPkgrel c <;>
    cases fieldUrl c <;> rfl

theorem parse_pkgbuild_none_of_url {c : Str} (hu : fieldUrl c = none) :
    parse_pkgbuild c = none := by
  unfold parse_pkgbuild
  rw [hu]
  cases fieldPkgname c <;> cases fieldPkgver c <;> cases fieldPkgrel c <;>
    cases fieldPkgdesc c <;> rfl

theorem gen_main_fail {c : Str} (h : parse_pkgbuild c = none) :
    gen_main (some c) = (1, none) := by
  show (match parse_pkgbuild c with
    | none => ((1 : Nat), (none : Option Str))
    | some p => (0, some (generate_srcinfo p))) = (1, none)
  rw [h]

/-- C10: a descriptor whose every `pkgdesc="` (resp. `url="`) occurrence is
immediately followed by the closing quote — an empty quoted value — fails
extraction exactly as a missing field: the parse returns nothing and the
Regenerator exits 1 writing no output. -/
theorem C10_empty_quoted_fields_rejected :
    (∀ c : Str,
      (∀ i < c.length, isPre (("pkgdesc=\"").toList) (c.drop i) = true →
        ((c.drop i).drop (("pkgdesc=\"").toList).length).takeWhile
          (fun d => !(d == '"')) = []) →
      fieldPkgdesc c = none ∧ parse_pkgbuild c = none ∧
        gen_main (some c) = (1, none)) ∧
    (∀ c : Str,
      (∀ i < c.length, isPre (("url=\"").toList) (c.drop i) = true →
        ((c.drop i).drop (("url=\"").toList).length).takeWhile
          (fun d => !(d == '"')) = []) →
      fieldUrl c = none ∧ parse_pkgbuild c = none ∧
        gen_main (some c) = (1, none)) := by
  constructor
  · intro c h
    have hd : fieldPkgdesc c = none := by
      refine extractRun_none c (fun i hi => ?_)
      by_cases hlen : i < c.length
      · exact h i hlen hi
      · rw [List.drop_eq_nil_of_le (by omega)] at hi
        rw [isPre_nonnil_nil (by decide)] at hi
        exact absurd hi (by decide)
    exact ⟨hd, parse_pkgbuild_none_of_desc hd,
      gen_main_fail (parse_pkgbuild_none_of_desc hd)⟩
  · intro c h
    have hu : fieldUrl c = none := by
      refine extractRun_none c (fun i hi => ?_)
      by_cases hlen : i < c.length
      · exact h i hlen hi
      · rw [List.drop_eq_nil_of_le (by omega)] at hi
        rw [isPre_nonnil_nil (by decide)] at hi
        exact absurd hi (by decide)
    exact ⟨hu, parse_pkgbuild_none_of_url hu,
      gen_main_fail (parse_pkgbuild_none_of_url hu)⟩

def wC10a : Str :=
  ("pkgname=x\npkgver=1\npkgrel=1\npkgdesc=\"\"\nurl=\"y\"\n").toList

def wC10b : Str :=
  ("pkgname=x\npkgver=1\npkgrel=1\npkgdesc=\"d\"\nurl=\"\"\n").toList

/-- Witness for C10: concrete descriptors with `pkgdesc=""` and `url=""`
are rejected with exit 1 and no output. -/
theorem C10_empty_quoted_fields_rejected_witness :
    (fieldPkgdesc wC10a = none ∧ parse_pkgbuild wC10a = none ∧
      gen_main (some wC10a) = (1, none)) ∧
    (fieldUrl wC10b = none ∧ parse_pkgbuild wC10b = none ∧
      gen_main (some wC10b) = (1, none)) :=
  ⟨C10_empty_quoted_fields_rejected.1 wC10a (by decide),
   C10_empty_quoted_fields_rejected.2 wC10b (by decide)⟩

end AwscliLocal
